import Mathlib

/-!
Verification of the CIGAR-to-path segmentation core of the
barcoded-amplicon pipeline (files `sequencing/cigar.py` and
`sequencing/gfa.py`).  The Python source is shallowly embedded below:
pure functions become Lean functions, the imperative `cut_cigar` co-walk
becomes an explicit step function on a cursor state driven by fuel, and
Python exceptions become an explicit error type.  Machine integers are
modelled as `Int`/`Nat` (Python integers are unbounded, so no wrap-around
is modelled).
-/

namespace Pipeline

/-- Alignment operation kinds, mirroring the `CigarOp` IntEnum
(`M I D N S H P = X B`); the member named `=` in Python is `eq` here. -/
inductive CigarOp where
  | M | I | D | N | S | H | P | eq | X | B
deriving DecidableEq, Repr

/-- Textual single-character form of each operation (the enum member name). -/
def opChar : CigarOp → Char
  | .M => 'M'
  | .I => 'I'
  | .D => 'D'
  | .N => 'N'
  | .S => 'S'
  | .H => 'H'
  | .P => 'P'
  | .eq => '='
  | .X => 'X'
  | .B => 'B'

/-- Reverse lookup from an operation letter, as used by `CigarOp[match[2]]`. -/
def charToOp : Char → Option CigarOp
  | 'M' => some .M
  | 'I' => some .I
  | 'D' => some .D
  | 'N' => some .N
  | 'S' => some .S
  | 'H' => some .H
  | 'P' => some .P
  | '=' => some .eq
  | 'X' => some .X
  | 'B' => some .B
  | _ => none

/-- Count columns, the values of `OP_TO_COLUMN_NAME`. -/
inductive CountCol where
  | matches | mismatches | insertions | deletions
deriving DecidableEq, Repr

/-- The `OP_TO_COLUMN_NAME` dict: only `=`, `X`, `I`, `D` have a counter;
looking up any other op raises `KeyError` in Python (modelled as `none`). -/
def opToColumnName : CigarOp → Option CountCol
  | .eq => some .matches
  | .X => some .mismatches
  | .I => some .insertions
  | .D => some .deletions
  | _ => none

/-- Decimal digit expansion of a natural number, most significant digit
first, as produced by Python string formatting of a nonnegative int. -/
def natDecimal (n : Nat) : List Char :=
  if h : n < 10 then [Nat.digitChar n]
  else natDecimal (n / 10) ++ [Nat.digitChar (n % 10)]
termination_by n
decreasing_by
  exact Nat.div_lt_self (by omega) (by omega)

/-- Decimal rendering of a Python int (a minus sign for negatives). -/
def intDecimal (i : Int) : List Char :=
  if i < 0 then '-' :: natDecimal i.natAbs else natDecimal i.toNat

/-- Character stream of `encode_cigar`: the concatenation of
`str(length) ++ str(op)` for each operation, in order. -/
def encodeCigarChars : List (CigarOp × Int) → List Char
  | [] => []
  | (op, len) :: rest => intDecimal len ++ opChar op :: encodeCigarChars rest

/-- `encode_cigar(cigar)`: concatenates the decimal length and the
operation letter of each operation, in order. -/
def encode_cigar (c : List (CigarOp × Int)) : String :=
  String.mk (encodeCigarChars c)

/-- Scanner state machine equivalent to
`re.finditer(r"(digits)(one of MIDNSHP=XB)", s)`: `pending` carries the
value of the maximal digit run ending just before the current position.
A token is emitted exactly when an operation letter immediately follows a
nonempty digit run; any other character resets the run.  This matches the
regex because a match can only start at a digit, the greedy `\d+` takes
the maximal run, and backtracking to a shorter run cannot help (the next
character would be a digit, which is not an operation letter). -/
def decodeCigarAux : List Char → Option Nat → List (CigarOp × Nat)
  | [], _ => []
  | c :: rest, pending =>
    if c.isDigit then
      decodeCigarAux rest (some (10 * pending.getD 0 + (c.toNat - 48)))
    else
      match pending, charToOp c with
      | some n, some op => (op, n) :: decodeCigarAux rest none
      | _, _ => decodeCigarAux rest none

/-- `decode_cigar(s)`: extracts `(op, length)` pairs from every
`digits`-then-operation-letter token found in the string, in order.
Characters that are not part of such a token are skipped (this is what
`re.finditer` does: it never raises on unmatched input). -/
def decode_cigar (s : String) : List (CigarOp × Nat) :=
  decodeCigarAux s.data none

/-- The data-model Cigar (lengths are unsigned) viewed with Python int
lengths, for feeding into `encode_cigar`. -/
def cigarInts (c : List (CigarOp × Nat)) : List (CigarOp × Int) :=
  c.map (fun p => (p.1, (p.2 : Int)))

/-! Lemmas for the codec round trip. -/

/-- Value of a digit run as accumulated by the decoder. -/
def digitsValFrom (a : Nat) (l : List Char) : Nat :=
  l.foldl (fun acc c => 10 * acc + (c.toNat - 48)) a

theorem digitsValFrom_append (a : Nat) (l₁ l₂ : List Char) :
    digitsValFrom a (l₁ ++ l₂) = digitsValFrom (digitsValFrom a l₁) l₂ :=
  List.foldl_append ..

theorem natDecimal_ne_nil (n : Nat) : natDecimal n ≠ [] := by
  rw [natDecimal]
  split
  · simp
  · simp

theorem digitChar_toNat (m : Nat) (hm : m < 10) : (Nat.digitChar m).toNat - 48 = m := by
  interval_cases m <;> decide

theorem digitChar_isDigit (m : Nat) (hm : m < 10) : (Nat.digitChar m).isDigit := by
  interval_cases m <;> decide

theorem natDecimal_isDigit (n : Nat) : ∀ c ∈ natDecimal n, c.isDigit := by
  induction n using Nat.strong_induction_on with
  | _ n ih =>
    rw [natDecimal]
    split
    · rename_i h
      intro c hc
      simp only [List.mem_singleton] at hc
      subst hc
      exact digitChar_isDigit n h
    · rename_i h
      intro c hc
      simp only [List.mem_append, List.mem_singleton] at hc
      rcases hc with hc | hc
      · exact ih (n / 10) (Nat.div_lt_self (by omega) (by omega)) c hc
      · subst hc
        exact digitChar_isDigit (n % 10) (Nat.mod_lt _ (by omega))

theorem digitsValFrom_natDecimal (a n : Nat) :
    digitsValFrom a (natDecimal n) = a * 10 ^ (natDecimal n).length + n := by
  induction n using Nat.strong_induction_on generalizing a with
  | _ n ih =>
    rw [natDecimal]
    split
    · rename_i h
      have hd := digitChar_toNat n h
      simp [digitsValFrom, hd, Nat.mul_comm]
    · rename_i h
      have hmod := digitChar_toNat (n % 10) (Nat.mod_lt _ (by omega))
      rw [digitsValFrom_append,
        ih (n / 10) (Nat.div_lt_self (by omega) (by omega)) a]
      simp only [digitsValFrom, List.foldl_cons, List.foldl_nil, hmod,
        List.length_append, List.length_singleton]
      rw [pow_succ]
      have := Nat.div_add_mod n 10
      ring_nf
      omega

theorem opChar_not_digit (op : CigarOp) : (opChar op).isDigit = false := by
  cases op <;> decide

theorem charToOp_opChar (op : CigarOp) : charToOp (opChar op) = some op := by
  cases op <;> rfl

theorem decodeCigarAux_digits (ds : List Char) (hds : ∀ c ∈ ds, c.isDigit)
    (a : Nat) (l : List Char) :
    decodeCigarAux (ds ++ l) (some a) = decodeCigarAux l (some (digitsValFrom a ds)) := by
  induction ds generalizing a with
  | nil => simp [digitsValFrom]
  | cons c rest ih =>
    have hc : c.isDigit := hds c (by simp)
    simp only [List.cons_append, decodeCigarAux, hc, if_pos, Option.getD_some,
      List.append_eq]
    rw [ih (fun d hd => hds d (by simp [hd]))]
    rfl

theorem decodeCigarAux_token (op : CigarOp) (n : Nat) (l : List Char) :
    decodeCigarAux (natDecimal n ++ opChar op :: l) none = (op, n) :: decodeCigarAux l none := by
  obtain ⟨d, ds, hd⟩ : ∃ d ds, natDecimal n = d :: ds := by
    cases h : natDecimal n with
    | nil => exact absurd h (natDecimal_ne_nil n)
    | cons d ds => exact ⟨d, ds, rfl⟩
  have hdig := natDecimal_isDigit n
  rw [hd] at hdig ⊢
  have hval : digitsValFrom 0 (d :: ds) = n := by
    have := digitsValFrom_natDecimal 0 n
    rw [hd] at this
    simpa using this
  simp only [List.cons_append, decodeCigarAux, hdig d (by simp), if_pos,
    Option.getD_none, List.append_eq]
  rw [decodeCigarAux_digits ds (fun c hc => hdig c (by simp [hc]))
    (10 * 0 + (d.toNat - 48)) (opChar op :: l)]
  have : digitsValFrom (10 * 0 + (d.toNat - 48)) ds = n := by
    simpa [digitsValFrom] using hval
  rw [this]
  simp only [decodeCigarAux, opChar_not_digit, Bool.false_eq_true, if_neg,
    not_false_iff, charToOp_opChar]

/-- Unconditional codec round trip over data-model Cigars. -/
theorem decode_encode_cigar (c : List (CigarOp × Nat)) :
    decode_cigar (encode_cigar (cigarInts c)) = c := by
  induction c with
  | nil => rfl
  | cons p rest ih =>
    obtain ⟨op, n⟩ := p
    have hint : intDecimal ((n : Int)) = natDecimal n := by
      simp [intDecimal]
    simp only [cigarInts, List.map_cons, encode_cigar, encodeCigarChars, hint,
      decode_cigar] at *
    rw [decodeCigarAux_token]
    simpa [decode_cigar, encode_cigar, cigarInts] using ih

/-! Error taxonomy.  Python raises exceptions; the embedding returns these
error values instead.  The spec name `PathCigarMismatch` covers the two
`ValueError`s raised by the co-walk (`pathTooLong`, `pathTooShort`). -/

/-- Errors of the embedded code, one constructor per Python raise site or
runtime failure kind. -/
inductive Err where
  | malformedSign
  | maxOfEmpty
  | missingQueryLength
  | pathTooLong
  | pathTooShort
  | duplicateSegment
  | duplicateKey
  | keyError
  | nameError
  | typeError
  | fuelExhausted
deriving DecidableEq, Repr

/-- The spec's `PathCigarMismatch` is either of the two length-mismatch
`ValueError`s of `cut_cigar`. -/
def Err.isPathCigarMismatch : Err → Bool
  | .pathTooLong => true
  | .pathTooShort => true
  | _ => false

/-! Oriented segment graph (`gfa.py`). -/

/-- One GFA link line, as accessed by `gfa_to_dag` (`edge.from_orient`,
`edge.from_name`, `edge.to_orient`, `edge.to_name`). -/
structure Link where
  from_orient : Char
  from_name : String
  to_orient : Char
  to_name : String
deriving DecidableEq, Repr

/-- Directed graph with the observable structure of `networkx.DiGraph`:
node list and edge list in insertion order, duplicates ignored. -/
structure Graph where
  nodes : List String
  edges : List (String × String)
deriving DecidableEq, Repr

def emptyGraph : Graph := ⟨[], []⟩

/-- `add_node` semantics of networkx: no-op when present. -/
def addNode (g : Graph) (n : String) : Graph :=
  if n ∈ g.nodes then g else ⟨g.nodes ++ [n], g.edges⟩

/-- `add_edge` semantics of networkx: inserts missing endpoints, then the
edge (no-op when the edge is present). -/
def addEdge (g : Graph) (u v : String) : Graph :=
  if (u, v) ∈ (addNode (addNode g u) v).edges then addNode (addNode g u) v
  else ⟨(addNode (addNode g u) v).nodes, (addNode (addNode g u) v).edges ++ [(u, v)]⟩

/-- `_sign_to_angle_bracket(s, reverse)`: maps a link orientation sign to
a direction marker, raising `NotImplementedError` on any other sign. -/
def signToAngleBracket (s : Char) (reverse : Bool) : Except Err Char :=
  if reverse then
    if s = '-' then .ok '>'
    else if s = '+' then .ok '<'
    else .error .malformedSign
  else
    if s = '-' then .ok '<'
    else if s = '+' then .ok '>'
    else .error .malformedSign

/-- Body of the `gfa_to_dag` loop for one link: add the stated edge and
the edge with both endpoint orientations flipped (f-string node names are
the direction marker followed by the segment name). -/
def gfaToDagStep (g : Graph) (e : Link) : Except Err Graph :=
  match signToAngleBracket e.from_orient false with
  | .error err => .error err
  | .ok bf =>
    match signToAngleBracket e.to_orient false with
    | .error err => .error err
    | .ok bt =>
      match signToAngleBracket e.from_orient true with
      | .error err => .error err
      | .ok bf' =>
        match signToAngleBracket e.to_orient true with
        | .error err => .error err
        | .ok bt' =>
          .ok (addEdge
            (addEdge g (String.mk (bf :: e.from_name.data)) (String.mk (bt :: e.to_name.data)))
            (String.mk (bf' :: e.from_name.data)) (String.mk (bt' :: e.to_name.data)))

/-- Worker of `gfa_to_dag`: fold the step over the link list. -/
def gfaToDagAux (g : Graph) : List Link → Except Err Graph
  | [] => .ok g
  | e :: rest =>
    match gfaToDagStep g e with
    | .error err => .error err
    | .ok g' => gfaToDagAux g' rest

/-- `gfa_to_dag(gfa)`: builds the oriented directed graph from the link
list, two directed edges per link. -/
def gfa_to_dag (links : List Link) : Except Err Graph :=
  gfaToDagAux emptyGraph links

/-- Orientation reversal of an oriented node name: flips the leading
direction marker (the claim's `reverse`). -/
def revNode (s : String) : String :=
  match s.data with
  | '>' :: r => String.mk ('<' :: r)
  | '<' :: r => String.mk ('>' :: r)
  | _ => s

/-! Graph analysis (`weakly_connected_components` is the networkx
undirected-reachability partition; the spec calls for the standard
partition, which this BFS computes with ample fuel). -/

/-- Undirected neighbours of a node. -/
def undirectedAdj (g : Graph) (n : String) : List String :=
  (g.edges.filter (fun e => e.1 = n)).map (·.2) ++
    (g.edges.filter (fun e => e.2 = n)).map (·.1)

/-- Fuel-driven breadth-first collection of the undirected reachable set. -/
def reachAux (g : Graph) : Nat → List String → List String → List String
  | 0, _, visited => visited
  | _ + 1, [], visited => visited
  | fuel + 1, n :: queue, visited =>
    if n ∈ visited then reachAux g fuel queue visited
    else reachAux g fuel (queue ++ undirectedAdj g n) (visited ++ [n])

/-- Undirected reachable set of one node (its weakly connected component). -/
def reach (g : Graph) (n : String) : List String :=
  reachAux g ((g.nodes.length + 1) * (2 * g.edges.length + 2)) [n] []

/-- Worker for the component partition: scan nodes in graph order and emit
the component of every not-yet-seen node. -/
def wccAux (g : Graph) : List String → List String → List (List String)
  | [], _ => []
  | n :: rest, seen =>
    if n ∈ seen then wccAux g rest seen
    else reach g n :: wccAux g rest (seen ++ reach g n)

/-- `networkx.weakly_connected_components(graph)`, materialized. -/
def weakly_connected_components (g : Graph) : List (List String) :=
  wccAux g g.nodes []

/-- In-degree of a node in the subgraph induced by a component. -/
def subgraphInDegree (g : Graph) (wcc : List String) (n : String) : Nat :=
  (g.edges.filter (fun e => e.1 ∈ wcc ∧ e.2 ∈ wcc ∧ e.2 = n)).length

/-- Out-degree of a node in the subgraph induced by a component. -/
def subgraphOutDegree (g : Graph) (wcc : List String) (n : String) : Nat :=
  (g.edges.filter (fun e => e.1 ∈ wcc ∧ e.2 ∈ wcc ∧ e.1 = n)).length

/-- `dag_endpoints(graph, wccs)`: per component, `sources` are nodes with
in-degree nonzero and out-degree zero, `sinks` the opposite (the source
keeps this intentionally inverted naming). -/
def dag_endpoints (g : Graph) (wccs : Option (List (List String))) :
    List String × List String :=
  let ws := wccs.getD (weakly_connected_components g)
  let sources := ws.foldl (fun acc wcc =>
    acc ++ (g.nodes.filter (fun n => n ∈ wcc)).filter
      (fun n => subgraphInDegree g wcc n ≠ 0 ∧ subgraphOutDegree g wcc n = 0)) []
  let sinks := ws.foldl (fun acc wcc =>
    acc ++ (g.nodes.filter (fun n => n ∈ wcc)).filter
      (fun n => subgraphInDegree g wcc n = 0 ∧ subgraphOutDegree g wcc n ≠ 0)) []
  (sources, sinks)

/-- Python `max(xs, key=k)`: first maximizer, `ValueError` when empty. -/
def pyMaxByKey (k : α → Nat) : List α → Except Err α
  | [] => .error .maxOfEmpty
  | x :: xs => .ok (xs.foldl (fun best y => if k best < k y then y else best) x)

/-- Number of forward-oriented nodes of a component (name starts `>`). -/
def forwardCount (wcc : List String) : Nat :=
  (wcc.filter (fun s => s.data.head? = some '>')).length

/-- `dag_forward_segments(graph, wccs)`: the component with the most
forward-oriented nodes (first maximizer; `max` raises on no components). -/
def dag_forward_segments (g : Graph) (wccs : Option (List (List String))) :
    Except Err (List String) :=
  let ws := wccs.getD (weakly_connected_components g)
  pyMaxByKey forwardCount ws

/-! Segment filter (`segments_to_filter`). -/

/-- A Python argument that is either a bare string or a list of strings
(the duck typing that `segments_to_filter` probes with `isinstance`). -/
inductive StrOrList where
  | str (s : String)
  | list (l : List String)
deriving DecidableEq, Repr

/-- Iterating a Python string yields its characters; iterating a list
yields its items.  `set(x)` and `for p in x` both use this. -/
def StrOrList.items : StrOrList → List String
  | .str s => s.data.map (fun c => String.mk [c])
  | .list l => l

/-- Per-segment decision of the `segments_to_filter` loop. -/
def filterDecision (includeL inclPreL exclL exclPreL : List String)
    (segment : String) : Bool :=
  let d1 :=
    if includeL ≠ [] ∨ inclPreL ≠ [] then
      let d := true
      let d := if segment ∈ includeL then false else d
      if inclPreL.any (fun p => p.isPrefixOf segment) then false else d
    else false
  let d2 := if segment ∈ exclL then true else d1
  if exclPreL.any (fun p => p.isPrefixOf segment) then true else d2

/-- `segments_to_filter(segments, include, include_prefix, exclude,
exclude_prefix)`.  The four string-coercion branches all rebind the
`include` variable (a source quirk); the original arguments are then
consumed as iterables, so a string argument contributes its characters.
Returned as the list of excluded names in scan order (Python wraps it in
a set; membership is what the claims use).  Parameter names are
abbreviated (`incl` for `include` etc.) because `include` is a Lean
keyword. -/
def segments_to_filter (segments : List String)
    (incl inclPre excl exclPre : StrOrList) : List String :=
  let incl1 : StrOrList := match incl with | .str s => .list [s] | _ => incl
  let incl2 : StrOrList := match inclPre with | .str s => .list [s] | _ => incl1
  let incl3 : StrOrList := match excl with | .str s => .list [s] | _ => incl2
  let incl4 : StrOrList := match exclPre with | .str s => .list [s] | _ => incl3
  let includeL := incl4.items
  let exclL := excl.items
  let inclPreL := inclPre.items
  let exclPreL := exclPre.items
  segments.filter (filterDecision includeL inclPreL exclL exclPreL)

/-! Helper lemmas about graph construction. -/

theorem edges_addNode (g : Graph) (n : String) : (addNode g n).edges = g.edges := by
  unfold addNode
  split <;> rfl

theorem edges_addEdge (g : Graph) (u v : String) :
    (addEdge g u v).edges =
      if (u, v) ∈ g.edges then g.edges else g.edges ++ [(u, v)] := by
  unfold addEdge
  rw [edges_addNode, edges_addNode]
  split <;> simp [edges_addNode]

theorem mem_edges_addEdge (g : Graph) (u v : String) (p : String × String) :
    p ∈ (addEdge g u v).edges ↔ p ∈ g.edges ∨ p = (u, v) := by
  rw [edges_addEdge]
  split
  · rename_i h
    constructor
    · exact fun hp => Or.inl hp
    · rintro (hp | rfl)
      · exact hp
      · exact h
  · simp [List.mem_append]

/-- The sign map sends every valid sign to an angle bracket, and the
`reverse=True` call yields the flipped bracket. -/
theorem signToAngleBracket_pair (s c : Char)
    (h : signToAngleBracket s false = .ok c) :
    (c = '>' ∨ c = '<') ∧
      signToAngleBracket s true = .ok (if c = '>' then '<' else '>') := by
  unfold signToAngleBracket at h ⊢
  simp only [Bool.false_eq_true, if_false, if_true] at h ⊢
  by_cases hm : s = '-'
  · simp [hm] at h ⊢
    simp [← h]
  · by_cases hp : s = '+'
    · simp [hm, hp] at h ⊢
      simp [← h]
    · simp [hm, hp] at h

theorem revNode_mk (c : Char) (r : List Char) (hc : c = '>' ∨ c = '<') :
    revNode (String.mk (c :: r)) = String.mk ((if c = '>' then '<' else '>') :: r) := by
  rcases hc with rfl | rfl <;> rfl

/-- Edge-set symmetry under simultaneous orientation flip of both
endpoints (the companion the code actually adds). -/
def EdgeSym (g : Graph) : Prop :=
  ∀ u v : String, (u, v) ∈ g.edges → (revNode u, revNode v) ∈ g.edges

theorem gfaToDagStep_sym (g g' : Graph) (e : Link) (hg : EdgeSym g)
    (h : gfaToDagStep g e = .ok g') : EdgeSym g' := by
  unfold gfaToDagStep at h
  cases hf : signToAngleBracket e.from_orient false with
  | error err => rw [hf] at h; exact absurd h (by simp)
  | ok bf =>
  cases ht : signToAngleBracket e.to_orient false with
  | error err => rw [hf, ht] at h; exact absurd h (by simp)
  | ok bt =>
  obtain ⟨hbf, hf'⟩ := signToAngleBracket_pair _ _ hf
  obtain ⟨hbt, ht'⟩ := signToAngleBracket_pair _ _ ht
  rw [hf, ht, hf', ht'] at h
  simp only [Except.ok.injEq] at h
  subst h
  intro u v huv
  rw [mem_edges_addEdge] at huv
  rcases huv with huv | huv
  · rw [mem_edges_addEdge] at huv
    rcases huv with huv | huv
    · have := hg u v huv
      rw [mem_edges_addEdge, mem_edges_addEdge]
      exact Or.inl (Or.inl this)
    · rw [Prod.ext_iff] at huv
      obtain ⟨hu, hv⟩ := huv
      simp only at hu hv
      subst hu; subst hv
      rw [mem_edges_addEdge]
      rw [revNode_mk bf e.from_name.data hbf, revNode_mk bt e.to_name.data hbt]
      exact Or.inr rfl
  · rw [Prod.ext_iff] at huv
    obtain ⟨hu, hv⟩ := huv
    simp only at hu hv
    subst hu; subst hv
    rw [mem_edges_addEdge, mem_edges_addEdge]
    have hbf2 : (if bf = '>' then '<' else '>') = '>' ∨ (if bf = '>' then '<' else '>') = '<' := by
      rcases hbf with rfl | rfl <;> simp
    have hbt2 : (if bt = '>' then '<' else '>') = '>' ∨ (if bt = '>' then '<' else '>') = '<' := by
      rcases hbt with rfl | rfl <;> simp
    rw [revNode_mk _ e.from_name.data hbf2, revNode_mk _ e.to_name.data hbt2]
    have hff : (if (if bf = '>' then '<' else '>') = '>' then '<' else '>') = bf := by
      rcases hbf with rfl | rfl <;> simp
    have htt : (if (if bt = '>' then '<' else '>') = '>' then '<' else '>') = bt := by
      rcases hbt with rfl | rfl <;> simp
    rw [hff, htt]
    exact Or.inl (Or.inr rfl)

theorem gfa_to_dag_fold_sym : ∀ (links : List Link) (g₀ g : Graph), EdgeSym g₀ →
    gfaToDagAux g₀ links = .ok g → EdgeSym g := by
  intro links
  induction links with
  | nil =>
    intro g₀ g h0 h
    simp only [gfaToDagAux, Except.ok.injEq] at h
    subst h
    exact h0
  | cons e rest ih =>
    intro g₀ g h0 h
    simp only [gfaToDagAux] at h
    cases hstep : gfaToDagStep g₀ e with
    | error err =>
      rw [hstep] at h
      exact absurd h (by simp)
    | ok g₁ =>
      rw [hstep] at h
      exact ih g₁ g (gfaToDagStep_sym g₀ g₁ e h0 hstep) h

/-- C4 counterexample: from the single link `A+ -> B+` the graph has the
edge `>A -> >B` but not the claimed companion `<B -> <A` (it has
`<A -> <B` instead). -/
theorem claim_C4_counterexample :
    gfa_to_dag [⟨'+', "A", '+', "B"⟩] =
      .ok ⟨[">A", ">B", "<A", "<B"], [(">A", ">B"), ("<A", "<B")]⟩ ∧
    (">A", ">B") ∈ ([(">A", ">B"), ("<A", "<B")] : List (String × String)) ∧
    (revNode ">B", revNode ">A") ∉ ([(">A", ">B"), ("<A", "<B")] : List (String × String)) := by
  refine ⟨rfl, by simp, ?_⟩
  have h1 : revNode ">B" = "<B" := rfl
  have h2 : revNode ">A" = "<A" := rfl
  rw [h1, h2]
  simp

/-- C4 (amended): the edge set of `gfa_to_dag` is symmetric under
flipping the orientation marker of both endpoints while keeping the edge
direction: whenever `(u, v)` is an edge, so is `(reverse(u), reverse(v))`
(not `(reverse(v), reverse(u))` as claimed). -/
theorem claim_C4_orientation_symmetry (links : List Link) (g : Graph)
    (h : gfa_to_dag links = .ok g) :
    ∀ u v : String, (u, v) ∈ g.edges → (revNode u, revNode v) ∈ g.edges := by
  intro u v huv
  exact gfa_to_dag_fold_sym links emptyGraph g (fun _ _ hx => absurd hx (by simp [emptyGraph])) h u v huv

/-- C4 witness: the amended symmetry at the concrete one-link graph. -/
theorem claim_C4_witness :
    (revNode ">A", revNode ">B") ∈
      (Graph.mk [">A", ">B", "<A", "<B"] [(">A", ">B"), ("<A", "<B")]).edges :=
  claim_C4_orientation_symmetry [⟨'+', "A", '+', "B"⟩]
    ⟨[">A", ">B", "<A", "<B"], [(">A", ">B"), ("<A", "<B")]⟩ rfl ">A" ">B" (by simp)

/-- C5: decoding an encoded Cigar that has no zero-length operation and
no two adjacent operations of the same kind returns the original Cigar.
(The hypotheses mirror the claim; the underlying lemma shows the round
trip holds for every Cigar with unsigned lengths.) -/
theorem claim_C5_roundtrip (c : List (CigarOp × Nat))
    (h₁ : ∀ p ∈ c, p.2 ≠ 0)
    (h₂ : List.Chain' (fun p q => p.1 ≠ q.1) c) :
    decode_cigar (encode_cigar (cigarInts c)) = c :=
  decode_encode_cigar c

/-- C5 witness: the round trip at a concrete non-degenerate Cigar. -/
theorem claim_C5_witness :
    decode_cigar (encode_cigar (cigarInts [(CigarOp.eq, 12), (CigarOp.I, 2), (CigarOp.X, 1)])) =
      [(CigarOp.eq, 12), (CigarOp.I, 2), (CigarOp.X, 1)] :=
  claim_C5_roundtrip [(CigarOp.eq, 12), (CigarOp.I, 2), (CigarOp.X, 1)]
    (by decide) (by simp [List.chain'_cons])

/-- C6 counterexample: `decode_cigar` does not fail on non-grammar input;
it returns a Cigar.  An unrecognized operation letter (`"3Q"`), digits
with no operation letter (`"12"`), and trailing garbage (`"3M2"`) are all
silently skipped by the `re.finditer` scan. -/
theorem claim_C6_counterexample :
    decode_cigar "3Q" = [] ∧ decode_cigar "12" = [] ∧
      decode_cigar "3M2" = [(CigarOp.M, 3)] :=
  ⟨rfl, rfl, rfl⟩

/-- C6 (amended): `decode_cigar` never fails: character sequences that do
not match the token grammar are skipped, so appending a character that is
neither a digit nor an operation letter never changes the decoded Cigar. -/
theorem claim_C6_garbage_skipped (s : String) (c : Char)
    (hdig : c.isDigit = false) (hop : charToOp c = none) :
    decode_cigar (s.push c) = decode_cigar s := by
  show decodeCigarAux (s.data ++ [c]) none = decodeCigarAux s.data none
  suffices H : ∀ (l : List Char) (p : Option Nat),
      decodeCigarAux (l ++ [c]) p = decodeCigarAux l p from H s.data none
  intro l
  induction l with
  | nil =>
    intro p
    simp only [List.nil_append, decodeCigarAux, hdig, Bool.false_eq_true, if_neg,
      not_false_iff, hop]
  | cons d rest ih =>
    intro p
    by_cases hd : d.isDigit
    · simp only [List.cons_append, decodeCigarAux, hd, if_pos]
      exact ih _
    · simp only [List.cons_append, decodeCigarAux, hd, Bool.false_eq_true, if_neg,
        not_false_iff]
      cases p with
      | none => exact ih none
      | some n =>
        cases hco : charToOp d with
        | none => exact ih none
        | some op => simp only [List.append_eq, ih]

/-- C6 witness: appending garbage `Q` to `"3M"` leaves the decode result
unchanged. -/
theorem claim_C6_witness : decode_cigar ("3M".push 'Q') = decode_cigar "3M" :=
  claim_C6_garbage_skipped "3M" 'Q' (by decide) (by decide)

/-- The per-segment filter decision, characterized. -/
theorem filterDecision_eq_true_iff (a b c d : List String) (s : String) :
    filterDecision a b c d s = true ↔
      (s ∈ c ∨ d.any (fun p => p.isPrefixOf s) = true ∨
        ((a ≠ [] ∨ b ≠ []) ∧ s ∉ a ∧ b.any (fun p => p.isPrefixOf s) = false)) := by
  unfold filterDecision
  split_ifs <;> simp_all

/-- C7: with list-valued configuration, a segment is in the excluded set
iff it is one of the inputs and either an exclude rule hits it (exclude
rules always win), or include/include-prefix filtering is active and no
include rule retains it (default-exclude when include is active). -/
theorem claim_C7_filter_precedence (segments incl inclPre excl exclPre : List String)
    (s : String) :
    s ∈ segments_to_filter segments (.list incl) (.list inclPre) (.list excl) (.list exclPre) ↔
      s ∈ segments ∧
        (s ∈ excl ∨ exclPre.any (fun p => p.isPrefixOf s) = true ∨
          ((incl ≠ [] ∨ inclPre ≠ []) ∧ s ∉ incl ∧
            inclPre.any (fun p => p.isPrefixOf s) = false)) := by
  unfold segments_to_filter
  simp only [StrOrList.items, List.mem_filter, filterDecision_eq_true_iff]

/-- C10 counterexample: with `exclude` passed as the bare string `"s"`,
the segment literally named `"s"` is excluded (the raw string is later
consumed character-wise by `set(exclude)`), whereas the claimed
equivalent call with `include=["s"]` and empty `exclude` retains it. -/
theorem claim_C10_counterexample :
    segments_to_filter ["s"] (.list []) (.list []) (.str "s") (.list []) = ["s"] ∧
    segments_to_filter ["s"] (.list ["s"]) (.list []) (.list []) (.list []) = [] :=
  ⟨rfl, rfl⟩

/-- C10 (amended): a bare string `s` passed as `include_prefix`,
`exclude` or `exclude_prefix` rebinds `include` to `[s]`, but the
original parameter keeps the raw string and is then consumed as an
iterable of characters.  So each such call equals the call with
`include=[s]` and the given parameter replaced by the list of `s`'s
characters (as one-character strings), not by the empty list. -/
theorem claim_C10_string_coercion (segments : List String) (s : String) :
    segments_to_filter segments (.list []) (.str s) (.list []) (.list []) =
      segments_to_filter segments (.list [s]) (.list (s.data.map (fun c => String.mk [c])))
        (.list []) (.list []) ∧
    segments_to_filter segments (.list []) (.list []) (.str s) (.list []) =
      segments_to_filter segments (.list [s]) (.list [])
        (.list (s.data.map (fun c => String.mk [c]))) (.list []) ∧
    segments_to_filter segments (.list []) (.list []) (.list []) (.str s) =
      segments_to_filter segments (.list [s]) (.list []) (.list [])
        (.list (s.data.map (fun c => String.mk [c]))) :=
  ⟨rfl, rfl, rfl⟩

/-- C9 counterexample: on the empty graph `dag_forward_segments` raises
(`max()` over no components) instead of returning an empty segment
list. -/
theorem claim_C9_counterexample :
    dag_forward_segments emptyGraph none = .error .maxOfEmpty ∧
      dag_forward_segments emptyGraph none ≠ .ok [] :=
  ⟨rfl, fun h => Except.noConfusion ((rfl :
    dag_forward_segments emptyGraph none = Except.error Err.maxOfEmpty) ▸ h)⟩

/-- C9 (amended): on the empty graph the component partition is empty and
`dag_endpoints` returns empty source and sink lists without raising, but
`dag_forward_segments` raises (Python `max` on an empty sequence). -/
theorem claim_C9_empty_graph :
    weakly_connected_components emptyGraph = [] ∧
      dag_endpoints emptyGraph none = ([], []) ∧
      dag_forward_segments emptyGraph none = .error .maxOfEmpty :=
  ⟨rfl, rfl, rfl⟩

/-! The segmentation engine (`cut_cigar`).  Python data values appearing
in the per-segment dicts are modelled with explicit sum/option types; a
dict key that may be absent is an `Option` field. -/

/-- Value of `_parse_variant`: an int when the text parses as one. -/
inductive VariantVal where
  | int (i : Int)
  | str (s : String)
deriving DecidableEq, Repr

/-- Value held under the `cigar` key of a segment record: an operation
list during the walk, a string after finalization with
`cigar_as_string`. -/
inductive CigarVal where
  | ops (l : List (CigarOp × Int))
  | str (s : String)
deriving DecidableEq, Repr

/-- One per-segment record (`res[segment_name]` in the source).  Each
`Option` field models the presence of the corresponding dict key; the
Python key `end` is `stop` here and `reverse_complement` is `rc`
(keyword/name clashes), restored in `recordItems`. -/
structure SegRecord where
  variant : Option VariantVal := none
  matches_ : Option Int := none
  mismatches : Option Int := none
  insertions : Option Int := none
  deletions : Option Int := none
  cigar : Option CigarVal := none
  start : Option Int := none
  stop : Option Int := none
  rc : Option Bool := none
  seq : Option (List Char) := none
  phred : Option (List Int) := none
deriving DecidableEq, Repr

/-- `_parse_variant(s)`: `int(s)` when the text is an optionally signed
digit run, otherwise the text itself.  (Python `int` also strips
whitespace and underscores; segment-name fragments have neither.) -/
def parse_variant (s : String) : VariantVal :=
  match s.data with
  | '-' :: ds => if ds ≠ [] ∧ ds.all Char.isDigit then .int (-(digitsValFrom 0 ds : Int)) else .str s
  | '+' :: ds => if ds ≠ [] ∧ ds.all Char.isDigit then .int (digitsValFrom 0 ds) else .str s
  | ds => if ds ≠ [] ∧ ds.all Char.isDigit then .int (digitsValFrom 0 ds) else .str s

/-- `_append_cigar(cigar, new)`: coalesce with a same-kind last entry,
else append unless zero-length. -/
def append_cigar (cigar : List (CigarOp × Int)) (new : CigarOp × Int) :
    List (CigarOp × Int) :=
  match cigar.getLast? with
  | some last =>
    if last.1 = new.1 then cigar.dropLast ++ [(new.1, last.2 + new.2)]
    else if new.2 ≠ 0 then cigar ++ [new] else cigar
  | none => if new.2 ≠ 0 then cigar ++ [new] else cigar

/-- Python list/str slice `xs[a:b]` (step 1): negative indices count from
the end, then both bounds are clamped to `[0, n]`. -/
def pySlice (xs : List α) (a b : Int) : List α :=
  let n : Int := xs.length
  let a' := max 0 (min (if a < 0 then a + n else a) n)
  let b' := max 0 (min (if b < 0 then b + n else b) n)
  (xs.drop a'.toNat).take (b'.toNat - a'.toNat)

/-- Descending index run `a, a-1, ..., b+1` (empty when `a ≤ b`). -/
def pyRevIndices (a b : Int) : List Int :=
  (List.range (a - b).toNat).map (fun k => a - (k : Int))

/-- Python slice `xs[a:b:-1]` with both bounds given: negative indices
count from the end, bounds are clamped to `[-1, n-1]`, and elements are
taken at indices `a', a'-1, ..., b'+1` — empty whenever `a' ≤ b'`.  (This
is the extended-slice semantics that makes `phred[start:end:-1]` empty
for `start < end`.) -/
def pySliceRev (xs : List α) (a b : Int) : List α :=
  let n : Int := xs.length
  let a' := max (-1) (min (if a < 0 then a + n else a) (n - 1))
  let b' := max (-1) (min (if b < 0 then b + n else b) (n - 1))
  (pyRevIndices a' b').filterMap (fun i => xs.get? i.toNat)

/-- Modelled from the spec (`paulssonlab.util.sequence.reverse_complement`
is outside the covered sources): the nucleotide sequence read in the
opposite direction with bases complemented; characters outside `ACGT`
are left unchanged. -/
def complementBase : Char → Char
  | 'A' => 'T'
  | 'T' => 'A'
  | 'C' => 'G'
  | 'G' => 'C'
  | c => c

/-- Modelled from the spec: reverse complement of a sequence. -/
def reverse_complement (s : List Char) : List Char :=
  (s.map complementBase).reverse

/-- Inputs of the co-walk that stay fixed during the loop. -/
structure CutCtx where
  c1 : List (CigarOp × Int)
  segLens : List Int
  segNames : List String
  segRc : List Bool
  sequence : Option (List Char)
  phred : Option (List Int)
  segments : Option (List String)
  variant_sep : Option Char
  return_indices : Bool
  return_counts : Bool
  return_cigars : Bool
  cigar_as_string : Bool
  return_variants : Bool
deriving Repr

/-- Mutable locals of the `while True` loop.  `op = none` is Python
`None`; `op_length = none` models the still-unbound local (reading it is
a `NameError`).  `segment_length`, `segment_name`, `start_idx` are
assigned on the first iteration before any read (the path is nonempty),
so their initial values are unobservable. -/
structure CutState where
  first : Bool
  segment_idx : Nat
  cigar_idx : Nat
  query_idx : Int
  op : Option CigarOp
  op_length : Option Int
  segment_length : Int
  segment_name : String
  variant_name : Option VariantVal
  start_idx : Int
  res : List (String × SegRecord)
deriving Repr

/-- The allow-list test `segments is None or segment_name in segments`
(an empty list behaves like Python's untruthy empty collection: the
membership test is simply always false). -/
def passesFilter (ctx : CutCtx) (name : String) : Bool :=
  match ctx.segments with
  | none => true
  | some l => l.contains name

/-- Association-list update at a key (Python dict item assignment; keys
in `res` are unique by construction). -/
def updateRec (res : List (String × SegRecord)) (name : String)
    (f : SegRecord → SegRecord) : List (String × SegRecord) :=
  res.map (fun p => if p.1 = name then (p.1, f p.2) else p)

/-- Counter read by column. -/
def getCol (r : SegRecord) : CountCol → Option Int
  | .matches => r.matches_
  | .mismatches => r.mismatches
  | .insertions => r.insertions
  | .deletions => r.deletions

/-- Counter write by column. -/
def setCol (r : SegRecord) : CountCol → Int → SegRecord
  | .matches, v => { r with matches_ := some v }
  | .mismatches, v => { r with mismatches := some v }
  | .insertions, v => { r with insertions := some v }
  | .deletions, v => { r with deletions := some v }

/-- The record transformation of lines 129-149 applied to the
just-completed segment's stored record: record the query span,
orientation flag, oriented sequence/quality slices and the segment CIGAR
(reversed for reverse segments, stringified on request). -/
def finalizeRecord (ctx : CutCtx) (s : CutState) (rec0 : SegRecord) :
    Except Err SegRecord :=
  let isRc := ctx.segRc.getD s.segment_idx false
  let rec1 := if ctx.return_indices then
      { rec0 with
          start := some s.start_idx, stop := some s.query_idx,
          rc := some isRc }
    else rec0
  let rec2 := match ctx.sequence with
    | none => rec1
    | some seqn =>
      let sl := pySlice seqn s.start_idx s.query_idx
      { rec1 with seq := some (if isRc then reverse_complement sl else sl) }
  let rec3 := match ctx.phred with
    | none => rec2
    | some ph =>
      { rec2 with phred := some (if isRc then pySliceRev ph s.start_idx s.query_idx
          else pySlice ph s.start_idx s.query_idx) }
  if ctx.return_cigars then
    match rec3.cigar with
    | some (CigarVal.ops l) =>
      let l' := if isRc then l.reverse else l
      let cv := if ctx.cigar_as_string then CigarVal.str (encode_cigar l')
        else CigarVal.ops l'
      .ok { rec3 with cigar := some cv }
    | some (CigarVal.str _) => .error .typeError
    | none => .error .keyError
  else .ok rec3

/-- Finalization of the just-completed segment (lines 127-149), guarded
by the allow-list; the stored record is looked up and replaced. -/
def finalizeSegment (ctx : CutCtx) (s : CutState) :
    Except Err (List (String × SegRecord)) :=
  if passesFilter ctx s.segment_name then
    match s.res.lookup s.segment_name with
    | none => .error .keyError
    | some rec0 =>
      match finalizeRecord ctx s rec0 with
      | .error e => .error e
      | .ok r' => .ok (updateRec s.res s.segment_name (fun _ => r'))
  else .ok s.res

/-- The variant split of lines 158-165: the stripped segment name at a
path position and, when the separator occurs in it, the parsed variant
value of the part after the first separator. -/
def segNameVariant (ctx : CutCtx) (idx : Nat) : String × Option VariantVal :=
  let raw := ctx.segNames.getD idx ""
  match ctx.variant_sep with
  | some sep =>
    if sep ∈ raw.data then
      (String.mk (raw.data.take (raw.data.indexOf sep)),
        some (parse_variant (String.mk (raw.data.drop (raw.data.indexOf sep + 1)))))
    else (raw, none)
  | none => (raw, none)

/-- The freshly created record of lines 170-177: the variant stamp when
present and wanted, zeroed counters, an empty operation list. -/
def initRecord (ctx : CutCtx) (v : Option VariantVal) : SegRecord :=
  let rec0 : SegRecord := {}
  let rec1 := match v, ctx.return_variants with
    | some vv, true => { rec0 with variant := some vv }
    | _, _ => rec0
  let rec2 := if ctx.return_counts then
      { rec1 with
          matches_ := some 0, mismatches := some 0,
          insertions := some 0, deletions := some 0 }
    else rec1
  if ctx.return_cigars then { rec2 with cigar := some (CigarVal.ops []) }
  else rec2

/-- Initialization of the segment at `idx` (lines 156-177): resolve
length and name, split off a variant, remember the start offset and — if
the segment passes the allow-list — create its record (rejecting a name
already present). -/
def initSegment (ctx : CutCtx) (s : CutState) (idx : Nat) : Except Err CutState :=
  let nv := segNameVariant ctx idx
  let s' : CutState := { s with
    segment_idx := idx, segment_length := ctx.segLens.getD idx 0,
    segment_name := nv.1, variant_name := nv.2, start_idx := s.query_idx }
  if passesFilter ctx nv.1 then
    if (s.res.lookup nv.1).isSome then .error .duplicateSegment
    else .ok { s' with res := s.res ++ [(nv.1, initRecord ctx nv.2)] }
  else .ok s'

/-- The `segment_idx == len(segment_lengths)` arm: `break` when the
cigar cursor has run off the end with nothing left, else the
more-bases-than-cigar `ValueError` (short-circuit order as in Python:
`op_length` is only read when `cigar_idx < len(cigar)` fails). -/
def exhaustedCheck (ctx : CutCtx) (s : CutState)
    (res : List (String × SegRecord)) :
    Except Err (Sum CutState (List (String × SegRecord))) :=
  if s.cigar_idx < ctx.c1.length then .error .pathTooLong
  else
    match s.op_length with
    | none => .error .nameError
    | some ol => if ol ≠ 0 then .error .pathTooLong else .ok (.inr res)

/-- Lines 125-177: when entered (first iteration, or a non-insertion op
with the current segment exhausted), finalize the previous segment and
move to the next one, or terminate. -/
def stepBlock1 (ctx : CutCtx) (s : CutState) :
    Except Err (Sum CutState (List (String × SegRecord))) :=
  if (s.first ∨ s.op ≠ some CigarOp.I) ∧ (s.first ∨ s.segment_length = 0) then
    if s.first then
      if 0 = ctx.segLens.length then exhaustedCheck ctx s s.res
      else
        match initSegment ctx s 0 with
        | .error e => .error e
        | .ok s' => .ok (.inl s')
    else
      match finalizeSegment ctx s with
      | .error e => .error e
      | .ok res' =>
        if s.segment_idx + 1 = ctx.segLens.length then
          exhaustedCheck ctx { s with res := res' } res'
        else
          match initSegment ctx { s with res := res' } (s.segment_idx + 1) with
          | .error e => .error e
          | .ok s' => .ok (.inl s')
  else .ok (.inl s)

/-- Lines 183-189: load the operation at `idx`, the `None` sentinel just
past the end, or fail once the cursor moves further. -/
def fetchOp (ctx : CutCtx) (s : CutState) (idx : Nat) : Except Err CutState :=
  if idx = ctx.c1.length then .ok { s with cigar_idx := idx, op := none }
  else if idx > ctx.c1.length then .error .pathTooShort
  else .ok { s with
    cigar_idx := idx,
    op := some (ctx.c1.getD idx (CigarOp.M, 0)).1,
    op_length := some (ctx.c1.getD idx (CigarOp.M, 0)).2 }

/-- Lines 178-189: on the first iteration load the first operation
without advancing; afterwards advance the cigar cursor whenever the
current operation is used up. -/
def stepBlock2 (ctx : CutCtx) (s : CutState) : Except Err CutState :=
  if s.first then fetchOp ctx { s with first := false } s.cigar_idx
  else
    match s.op_length with
    | none => .error .nameError
    | some ol => if ol = 0 then fetchOp ctx s (s.cigar_idx + 1) else .ok s

/-- Accrual of the operation count (line 201): `OP_TO_COLUMN_NAME[op]`
then `res[segment_name][column] += advance`; missing keys are Python
`KeyError`s. -/
def accrueCounts (ctx : CutCtx) (res : List (String × SegRecord))
    (name : String) (o : CigarOp) (advance : Int) :
    Except Err (List (String × SegRecord)) :=
  if ctx.return_counts then
    match opToColumnName o with
    | none => .error .keyError
    | some col =>
      match res.lookup name with
      | none => .error .keyError
      | some r =>
        match getCol r col with
        | none => .error .keyError
        | some v => .ok (updateRec res name (fun rr => setCol rr col (v + advance)))
  else .ok res

/-- Accrual of the running per-segment CIGAR (line 203). -/
def accrueCigar (ctx : CutCtx) (res : List (String × SegRecord))
    (name : String) (o : CigarOp) (advance : Int) :
    Except Err (List (String × SegRecord)) :=
  if ctx.return_cigars then
    match res.lookup name with
    | none => .error .keyError
    | some r =>
      match r.cigar with
      | none => .error .keyError
      | some (CigarVal.str _) => .error .typeError
      | some (CigarVal.ops l) =>
        .ok (updateRec res name (fun rr =>
          { rr with cigar := some (CigarVal.ops (append_cigar l (o, advance))) }))
  else .ok res

/-- Lines 190-203 minus the advance computation: move the cursors by
`advance` and accrue into the active segment's record. -/
def applyAdvance (ctx : CutCtx) (s : CutState) (advance : Int) :
    Except Err CutState :=
  let s := { s with
    query_idx := if s.op = some CigarOp.I ∨ s.op = some CigarOp.eq ∨ s.op = some CigarOp.X
      then s.query_idx + advance else s.query_idx,
    op_length := some (s.op_length.getD 0 - advance),
    segment_length := if s.op = some CigarOp.D ∨ s.op = some CigarOp.eq ∨ s.op = some CigarOp.X
      then s.segment_length - advance else s.segment_length }
  match s.op with
  | none => .ok s
  | some o =>
    if passesFilter ctx s.segment_name then
      match accrueCounts ctx s.res s.segment_name o advance with
      | .error e => .error e
      | .ok res1 =>
        match accrueCigar ctx res1 s.segment_name o advance with
        | .error e => .error e
        | .ok res2 => .ok { s with res := res2 }
    else .ok s

/-- Lines 190-193: an insertion advances by its full remaining length,
anything else by the smaller of the remaining operation and segment
lengths; reading the never-assigned `op_length` (empty synthesized
cigar) is the Python `NameError`. -/
def stepAdvance (ctx : CutCtx) (s : CutState) : Except Err CutState :=
  match s.op_length with
  | none => .error .nameError
  | some ol =>
    if s.op = some CigarOp.I then applyAdvance ctx s ol
    else applyAdvance ctx s (min ol s.segment_length)

/-- Result of one full pass through the loop body. -/
inductive StepRes where
  | next (s : CutState)
  | done (res : List (String × SegRecord))
  | fail (e : Err)
deriving Repr

/-- One iteration of the `while True` body, in source order. -/
def cutStep (ctx : CutCtx) (s : CutState) : StepRes :=
  match stepBlock1 ctx s with
  | .error e => .fail e
  | .ok (.inr res) => .done res
  | .ok (.inl s1) =>
    match stepBlock2 ctx s1 with
    | .error e => .fail e
    | .ok s2 =>
      match stepAdvance ctx s2 with
      | .error e => .fail e
      | .ok s3 => .next s3

/-- Fuel-driven iteration of `cutStep`.  The fuel below is always
sufficient (the loop decreases a measure, see the termination lemma), so
`fuelExhausted` is never the result for the fuel `cut_cigar` supplies. -/
def cutLoop (ctx : CutCtx) : Nat → CutState → Except Err (List (String × SegRecord))
  | 0, _ => .error .fuelExhausted
  | fuel + 1, s =>
    match cutStep ctx s with
    | .fail e => .error e
    | .done res => .ok res
    | .next s' => cutLoop ctx fuel s'

/-- Ample fuel for `cutLoop` on a given context. -/
def cutFuel (ctx : CutCtx) : Nat :=
  ((ctx.c1.map (fun p => p.2.natAbs)).sum + 1) * (ctx.c1.length + 5) +
    ctx.segLens.length + 1

/-- Clip synthesis (lines 97-110): prepend/append deletion operations for
`path_start`/`path_end`, infer `query_length` from the sequence, prepend
and append insertion operations for `query_start`/`query_end` (failing
when `query_end` is given without a derivable query length), then drop
zero-length operations. -/
def clipSynthesizedCigar (cigar : List (CigarOp × Nat)) (path_length : Int)
    (query_start query_end query_length : Option Nat)
    (path_start path_end : Option Nat) (sequence : Option (List Char)) :
    Except Err (List (CigarOp × Int)) :=
  let c : List (CigarOp × Int) := cigarInts cigar
  let c := match path_start with
    | some ps => (CigarOp.D, (ps : Int)) :: c
    | none => c
  let c := match path_end with
    | some pe => c ++ [(CigarOp.D, path_length - (pe : Int))]
    | none => c
  let ql : Option Int := match query_length, sequence with
    | some q, _ => some (q : Int)
    | none, some sq => some (sq.length : Int)
    | none, none => none
  let c := match query_start with
    | some qs => (CigarOp.I, (qs : Int)) :: c
    | none => c
  match query_end with
  | some qe =>
    match ql with
    | none => .error .missingQueryLength
    | some q => .ok ((c ++ [(CigarOp.I, q - (qe : Int))]).filter (fun p => p.2 ≠ 0))
  | none => .ok (c.filter (fun p => p.2 ≠ 0))

/-- A heterogeneous record field value (the dict values of one flattened
row). -/
inductive FieldVal where
  | int (i : Int)
  | bool (b : Bool)
  | var (v : VariantVal)
  | cigarVal (c : CigarVal)
  | seq (s : List Char)
  | phred (l : List Int)
deriving DecidableEq, Repr

/-- Items of one segment record in Python dict insertion order: the keys
written at creation (`variant`, the four counters, `cigar`), then the
keys written at finalization (`start`, `end`, `reverse_complement`,
`seq`, `phred`; the `cigar` overwrite keeps its position). -/
def recordItems (r : SegRecord) : List (String × FieldVal) :=
  (match r.variant with | some v => [("variant", FieldVal.var v)] | none => []) ++
  (match r.matches_ with | some v => [("matches", FieldVal.int v)] | none => []) ++
  (match r.mismatches with | some v => [("mismatches", FieldVal.int v)] | none => []) ++
  (match r.insertions with | some v => [("insertions", FieldVal.int v)] | none => []) ++
  (match r.deletions with | some v => [("deletions", FieldVal.int v)] | none => []) ++
  (match r.cigar with | some c => [("cigar", FieldVal.cigarVal c)] | none => []) ++
  (match r.start with | some v => [("start", FieldVal.int v)] | none => []) ++
  (match r.stop with | some v => [("end", FieldVal.int v)] | none => []) ++
  (match r.rc with | some b => [("reverse_complement", FieldVal.bool b)] | none => []) ++
  (match r.seq with | some sq => [("seq", FieldVal.seq sq)] | none => []) ++
  (match r.phred with | some p => [("phred", FieldVal.phred p)] | none => [])

/-- Result shape of `cut_cigar`: the nested per-segment map, or — when a
`key_sep` is given — the flattened single row. -/
inductive CutResult where
  | nested (l : List (String × SegRecord))
  | flat (l : List (String × FieldVal))
deriving DecidableEq, Repr

/-- Flattening loop (lines 204-212): compound keys
`segment ++ sep ++ field`, rejecting collisions. -/
def flattenRow (sep : String) :
    List (String × FieldVal) → List (String × SegRecord) →
    Except Err (List (String × FieldVal))
  | row, [] => .ok row
  | row, (name, r) :: rest =>
    match flattenFields sep row name (recordItems r) with
    | .error e => .error e
    | .ok row' => flattenRow sep row' rest
where
  flattenFields (sep : String) :
      List (String × FieldVal) → String → List (String × FieldVal) →
      Except Err (List (String × FieldVal))
    | row, _, [] => .ok row
    | row, name, (k, v) :: items =>
      let key := name ++ sep ++ k
      if (row.lookup key).isSome then .error .duplicateKey
      else flattenFields sep (row ++ [(key, v)]) name items

/-- The final output-shaping step of `cut_cigar`. -/
def flattenResult (key_sep : Option String) (res : List (String × SegRecord)) :
    Except Err CutResult :=
  match key_sep with
  | none => .ok (.nested res)
  | some sep =>
    match flattenRow sep [] res with
    | .error e => .error e
    | .ok row => .ok (.flat row)

/-- The loop locals as they stand when the `while True` loop is entered
(lines 119-123; `op`, `op_length`, `segment_length`, `segment_name`,
`start_idx` model still-unbound Python locals and are never read before
their first assignment, except for `op_length` whose unbound read is the
modelled `NameError`). -/
def initState : CutState :=
  { first := true, segment_idx := 0, cigar_idx := 0, query_idx := 0,
    op := none, op_length := none, segment_length := 0,
    segment_name := "", variant_name := none, start_idx := 0, res := [] }

/-- `name[1:]` for a path entry. -/
def stripMarker (name : String) : String := String.mk name.data.tail

/-- `name[0] == "<"` for a path entry (path entries are nonempty). -/
def isRevMarker (name : String) : Bool := name.data.head? = some '<'

/-- The loop-and-flatten tail of `cut_cigar` (lines 119-213): run the
co-walk from the entry state, then shape the output. -/
def cutRun (ctx : CutCtx) (key_sep : Option String) : Except Err CutResult :=
  match cutLoop ctx (cutFuel ctx) initState with
  | .error e => .error e
  | .ok res => flattenResult key_sep res

/-- `cut_cigar(cigar, path, name_to_seq, ...)`, faithful to the source:
empty cigar or path returns the empty mapping; segment lengths come from
`name_to_seq` (a missing oriented name is a Python `KeyError`); the
clip-synthesized cigar and the (optionally sentinel-extended) segment
metadata drive the co-walk; the resulting record map is optionally
flattened. -/
def cut_cigar (cigar : List (CigarOp × Nat)) (path : List String)
    (name_to_seq : List (String × List Char))
    (query_start query_end query_length path_start path_end : Option Nat)
    (sequence : Option (List Char)) (phred : Option (List Int))
    (segments : Option (List String))
    (variant_sep : Option Char) (key_sep : Option String)
    (return_indices return_counts return_cigars cigar_as_string
      return_variants separate_ends : Bool) :
    Except Err CutResult :=
  if cigar = [] ∨ path = [] then .ok (.nested [])
  else
    match path.mapM (fun n => name_to_seq.lookup n) with
    | none => .error .keyError
    | some seqs =>
      let segment_lengths := seqs.map (fun sq => (sq.length : Int))
      let path_length := segment_lengths.sum
      match clipSynthesizedCigar cigar path_length query_start query_end
          query_length path_start path_end sequence with
      | .error e => .error e
      | .ok c1 =>
        let segNames0 := path.map stripMarker
        let segRc0 := path.map isRevMarker
        let ctx : CutCtx :=
          { c1 := c1
            segLens := if separate_ends then 0 :: segment_lengths ++ [0] else segment_lengths
            segNames := if separate_ends then "upstream" :: segNames0 ++ ["downstream"] else segNames0
            segRc := if separate_ends then false :: segRc0 ++ [false] else segRc0
            sequence := sequence
            phred := phred
            segments := segments
            variant_sep := variant_sep
            return_indices := return_indices
            return_counts := return_counts
            return_cigars := return_cigars
            cigar_as_string := cigar_as_string
            return_variants := return_variants }
        cutRun ctx key_sep

/-! Quantities for the conservation arguments about the co-walk. -/

/-- Query-consuming advances attributed to one record (the `insertions`,
`matches`, `mismatches` counters). -/
def recQ (r : SegRecord) : Int :=
  r.insertions.getD 0 + r.matches_.getD 0 + r.mismatches.getD 0

/-- Reference-consuming advances attributed to one record. -/
def recR (r : SegRecord) : Int :=
  r.deletions.getD 0 + r.matches_.getD 0 + r.mismatches.getD 0

/-- Sum of query-consuming advances over all records. -/
def sumQ (res : List (String × SegRecord)) : Int :=
  (res.map (fun p => recQ p.2)).sum

/-- Sum of reference-consuming advances over all records. -/
def sumR (res : List (String × SegRecord)) : Int :=
  (res.map (fun p => recR p.2)).sum

/-- Query-consuming length of one operation (kinds `I`, `=`, `X`). -/
def qlen (p : CigarOp × Int) : Int :=
  if p.1 = CigarOp.I ∨ p.1 = CigarOp.eq ∨ p.1 = CigarOp.X then p.2 else 0

/-- Reference-consuming length of one operation (kinds `D`, `=`, `X`). -/
def rlen (p : CigarOp × Int) : Int :=
  if p.1 = CigarOp.D ∨ p.1 = CigarOp.eq ∨ p.1 = CigarOp.X then p.2 else 0

/-- Total query-consuming length of a cigar. -/
def totalQ (c : List (CigarOp × Int)) : Int := (c.map qlen).sum

/-- Total reference-consuming length of a cigar. -/
def totalR (c : List (CigarOp × Int)) : Int := (c.map rlen).sum

/-- Query-cursor movement of an advance under a given current op. -/
def qAdv (op : Option CigarOp) (adv : Int) : Int :=
  if op = some CigarOp.I ∨ op = some CigarOp.eq ∨ op = some CigarOp.X then adv else 0

/-- Segment-cursor movement of an advance under a given current op. -/
def rAdv (op : Option CigarOp) (adv : Int) : Int :=
  if op = some CigarOp.D ∨ op = some CigarOp.eq ∨ op = some CigarOp.X then adv else 0

/-- Query-consuming length still unconsumed by the cigar cursor. -/
def remQ (ctx : CutCtx) (s : CutState) : Int :=
  match s.op_length with
  | none => totalQ (ctx.c1.drop s.cigar_idx)
  | some ol => qAdv s.op ol + totalQ (ctx.c1.drop (s.cigar_idx + 1))

/-- Reference-consuming length still unconsumed by the cigar cursor. -/
def remR (ctx : CutCtx) (s : CutState) : Int :=
  match s.op_length with
  | none => totalR (ctx.c1.drop s.cigar_idx)
  | some ol => rAdv s.op ol + totalR (ctx.c1.drop (s.cigar_idx + 1))

/-! Association-list bookkeeping lemmas. -/

theorem updateRec_keys (res : List (String × SegRecord)) (name : String)
    (f : SegRecord → SegRecord) :
    (updateRec res name f).map Prod.fst = res.map Prod.fst := by
  induction res with
  | nil => rfl
  | cons p rest ih =>
    simp only [updateRec, List.map_cons] at ih ⊢
    split <;> simp_all

theorem updateRec_not_mem (res : List (String × SegRecord)) (name : String)
    (f : SegRecord → SegRecord) (h : name ∉ res.map Prod.fst) :
    updateRec res name f = res := by
  induction res with
  | nil => rfl
  | cons p rest ih =>
    simp only [List.map_cons, List.mem_cons] at h
    push_neg at h
    simp only [updateRec, List.map_cons]
    rw [if_neg (fun hc => h.1 hc.symm)]
    simp only [updateRec] at ih
    rw [ih h.2]

theorem sum_map_updateRec (m : SegRecord → Int) (res : List (String × SegRecord))
    (name : String) (f : SegRecord → SegRecord) (r0 : SegRecord) (δ : Int)
    (hnd : (res.map Prod.fst).Nodup) (hl : res.lookup name = some r0)
    (hm : m (f r0) = m r0 + δ) :
    ((updateRec res name f).map (fun p => m p.2)).sum =
      (res.map (fun p => m p.2)).sum + δ := by
  induction res with
  | nil => simp at hl
  | cons p rest ih =>
    obtain ⟨k, r⟩ := p
    simp only [List.map_cons, List.nodup_cons] at hnd
    by_cases hk : name = k
    · subst hk
      simp only [List.lookup, beq_self_eq_true] at hl
      have hr : r = r0 := by simpa using hl
      subst hr
      simp only [updateRec, List.map_cons, if_pos rfl, List.sum_cons]
      rw [show List.map (fun p => if p.1 = name then (p.1, f p.2) else p) rest =
        updateRec rest name f from rfl]
      rw [updateRec_not_mem rest name f hnd.1]
      simp only [if_true]
      linarith [hm]
    · have hbeq : (name == k) = false := by
        simpa using hk
      simp only [List.lookup, hbeq] at hl
      simp only [updateRec, List.map_cons, List.sum_cons]
      rw [if_neg (fun hc => hk hc.symm)]
      have := ih hnd.2 hl
      simp only [updateRec] at this
      simp only [List.map_cons, List.sum_cons, this]
      ring

theorem lookup_isSome_iff_mem (res : List (String × SegRecord)) (name : String) :
    (res.lookup name).isSome ↔ name ∈ res.map Prod.fst := by
  induction res with
  | nil => simp
  | cons p rest ih =>
    obtain ⟨k, r⟩ := p
    by_cases hk : name = k
    · subst hk
      simp [List.lookup]
    · have hbeq : (name == k) = false := by simpa using hk
      simp [List.lookup, hbeq, hk, ih]

theorem sum_map_updateRec_pointwise (m : SegRecord → Int)
    (res : List (String × SegRecord)) (name : String) (f : SegRecord → SegRecord)
    (hf : ∀ r, m (f r) = m r) :
    ((updateRec res name f).map (fun p => m p.2)).sum =
      (res.map (fun p => m p.2)).sum := by
  induction res with
  | nil => rfl
  | cons p rest ih =>
    simp only [updateRec, List.map_cons, List.sum_cons] at ih ⊢
    by_cases hp : p.1 = name
    · rw [if_pos hp]
      have h2 : m (p.1, f p.2).2 = m p.2 := hf p.2
      rw [h2, ih]
    · rw [if_neg hp, ih]

theorem sumQ_append (res : List (String × SegRecord)) (p : String × SegRecord) :
    sumQ (res ++ [p]) = sumQ res + recQ p.2 := by
  simp [sumQ]

theorem sumR_append (res : List (String × SegRecord)) (p : String × SegRecord) :
    sumR (res ++ [p]) = sumR res + recR p.2 := by
  simp [sumR]

theorem initRecord_counts (ctx : CutCtx) (v : Option VariantVal) :
    recQ (initRecord ctx v) = 0 ∧ recR (initRecord ctx v) = 0 := by
  unfold initRecord
  cases hv : ctx.return_variants <;> cases hc : ctx.return_counts <;>
    cases hg : ctx.return_cigars <;> cases v <;> simp [recQ, recR]

/-- Everything `fetchOp` guarantees about a successful load. -/
theorem fetchOp_spec (ctx : CutCtx) (s : CutState) (idx : Nat) (s' : CutState)
    (h : fetchOp ctx s idx = .ok s') :
    s'.res = s.res ∧ s'.query_idx = s.query_idx ∧ s'.segment_idx = s.segment_idx ∧
    s'.segment_length = s.segment_length ∧ s'.first = s.first ∧
    s'.segment_name = s.segment_name ∧ s'.cigar_idx = idx ∧
    ((idx = ctx.c1.length ∧ s'.op = none ∧ s'.op_length = s.op_length) ∨
     (idx < ctx.c1.length ∧ s'.op = some (ctx.c1.getD idx (CigarOp.M, 0)).1 ∧
       s'.op_length = some (ctx.c1.getD idx (CigarOp.M, 0)).2)) := by
  unfold fetchOp at h
  split_ifs at h with h1 h2
  · cases h
    exact ⟨rfl, rfl, rfl, rfl, rfl, rfl, rfl, Or.inl ⟨h1, rfl, rfl⟩⟩
  · cases h
    have hlt : idx < ctx.c1.length := by omega
    exact ⟨rfl, rfl, rfl, rfl, rfl, rfl, rfl, Or.inr ⟨hlt, rfl, rfl⟩⟩

/-- Everything `initSegment` guarantees about a successful start of the
segment at `idx`. -/
theorem initSegment_spec (ctx : CutCtx) (s : CutState) (idx : Nat) (s' : CutState)
    (h : initSegment ctx s idx = .ok s') :
    s'.first = s.first ∧ s'.segment_idx = idx ∧ s'.cigar_idx = s.cigar_idx ∧
    s'.query_idx = s.query_idx ∧ s'.op = s.op ∧ s'.op_length = s.op_length ∧
    s'.segment_length = ctx.segLens.getD idx 0 ∧
    s'.segment_name = (segNameVariant ctx idx).1 ∧
    sumQ s'.res = sumQ s.res ∧ sumR s'.res = sumR s.res ∧
    ((s'.res = s.res ∧ passesFilter ctx (segNameVariant ctx idx).1 = false) ∨
     (s'.res = s.res ++ [((segNameVariant ctx idx).1, initRecord ctx (segNameVariant ctx idx).2)] ∧
       passesFilter ctx (segNameVariant ctx idx).1 = true ∧
       (segNameVariant ctx idx).1 ∉ s.res.map Prod.fst)) := by
  simp only [initSegment] at h
  split_ifs at h with h1 h2
  · cases h
    refine ⟨rfl, rfl, rfl, rfl, rfl, rfl, rfl, rfl, ?_, ?_, ?_⟩
    · show sumQ (s.res ++ [((segNameVariant ctx idx).1, initRecord ctx (segNameVariant ctx idx).2)]) =
        sumQ s.res
      rw [sumQ_append]
      have hz := (initRecord_counts ctx (segNameVariant ctx idx).2).1
      simp [hz]
    · show sumR (s.res ++ [((segNameVariant ctx idx).1, initRecord ctx (segNameVariant ctx idx).2)]) =
        sumR s.res
      rw [sumR_append]
      have hz := (initRecord_counts ctx (segNameVariant ctx idx).2).2
      simp [hz]
    · refine Or.inr ⟨?_, h1, ?_⟩
      · show s.res ++ [((segNameVariant ctx idx).1, initRecord ctx (segNameVariant ctx idx).2)] =
          s.res ++ [((segNameVariant ctx idx).1, initRecord ctx (segNameVariant ctx idx).2)]
        rfl
      · rw [← lookup_isSome_iff_mem]
        simpa using h2
  · cases h
    refine ⟨rfl, rfl, rfl, rfl, rfl, rfl, rfl, rfl, rfl, rfl, Or.inl ⟨?_, ?_⟩⟩
    · rfl
    · simpa using h1

/-- Finalization does not change the four counters of the record. -/
theorem finalizeRecord_counts (ctx : CutCtx) (s : CutState) (rec0 r' : SegRecord)
    (h : finalizeRecord ctx s rec0 = .ok r') :
    r'.matches_ = rec0.matches_ ∧ r'.mismatches = rec0.mismatches ∧
      r'.insertions = rec0.insertions ∧ r'.deletions = rec0.deletions := by
  unfold finalizeRecord at h
  cases hgc : ctx.return_cigars <;> rw [hgc] at h <;>
    cases hsq : ctx.sequence <;> rw [hsq] at h <;>
    cases hph : ctx.phred <;> rw [hph] at h <;>
    cases hri : ctx.return_indices <;> rw [hri] at h <;>
    simp only [Bool.false_eq_true, if_false, if_true] at h
  all_goals
    first
    | (cases h; exact ⟨rfl, rfl, rfl, rfl⟩)
    | (split at h <;> first
        | (cases h; exact ⟨rfl, rfl, rfl, rfl⟩)
        | cases h)

/-- Everything `finalizeSegment` guarantees about a successful
finalization: sums of attributed advances and the key list are
unchanged. -/
theorem finalizeSegment_spec (ctx : CutCtx) (s : CutState)
    (res' : List (String × SegRecord)) (h : finalizeSegment ctx s = .ok res')
    (hnd : (s.res.map Prod.fst).Nodup) :
    sumQ res' = sumQ s.res ∧ sumR res' = sumR s.res ∧
      res'.map Prod.fst = s.res.map Prod.fst := by
  unfold finalizeSegment at h
  split_ifs at h with h1
  · cases hl : s.res.lookup s.segment_name with
    | none => rw [hl] at h; cases h
    | some rec0 =>
      rw [hl] at h
      dsimp only at h
      cases hf : finalizeRecord ctx s rec0 with
      | error e => rw [hf] at h; cases h
      | ok r' =>
        rw [hf] at h
        dsimp only at h
        cases h
        obtain ⟨hm, hmm, hi, hd⟩ := finalizeRecord_counts ctx s rec0 r' hf
        refine ⟨?_, ?_, updateRec_keys ..⟩
        · have := sum_map_updateRec recQ s.res s.segment_name (fun _ => r') rec0 0
            hnd hl (by simp [recQ, hm, hmm, hi])
          simpa [sumQ] using this
        · have := sum_map_updateRec recR s.res s.segment_name (fun _ => r') rec0 0
            hnd hl (by simp [recR, hm, hmm, hd])
          simpa [sumR] using this
  · cases h
    exact ⟨rfl, rfl, rfl⟩

theorem ite_add_qAdv (op : Option CigarOp) (q adv : Int) :
    (if op = some CigarOp.I ∨ op = some CigarOp.eq ∨ op = some CigarOp.X
      then q + adv else q) = q + qAdv op adv := by
  unfold qAdv
  split_ifs <;> ring

theorem ite_sub_rAdv (op : Option CigarOp) (g adv : Int) :
    (if op = some CigarOp.D ∨ op = some CigarOp.eq ∨ op = some CigarOp.X
      then g - adv else g) = g - rAdv op adv := by
  unfold rAdv
  split_ifs <;> ring

theorem recQ_setCol_delta (r : SegRecord) (o : CigarOp) (col : CountCol) (v adv : Int)
    (hcol : opToColumnName o = some col) (hg : getCol r col = some v) :
    recQ (setCol r col (v + adv)) = recQ r + qAdv (some o) adv := by
  cases o with
  | M => simp [opToColumnName] at hcol
  | N => simp [opToColumnName] at hcol
  | S => simp [opToColumnName] at hcol
  | H => simp [opToColumnName] at hcol
  | P => simp [opToColumnName] at hcol
  | B => simp [opToColumnName] at hcol
  | I =>
    simp only [opToColumnName, Option.some.injEq] at hcol
    subst hcol
    simp only [getCol] at hg
    simp [setCol, recQ, qAdv, hg]
    ring
  | D =>
    simp only [opToColumnName, Option.some.injEq] at hcol
    subst hcol
    simp [setCol, recQ, qAdv]
  | eq =>
    simp only [opToColumnName, Option.some.injEq] at hcol
    subst hcol
    simp only [getCol] at hg
    simp [setCol, recQ, qAdv, hg]
    ring
  | X =>
    simp only [opToColumnName, Option.some.injEq] at hcol
    subst hcol
    simp only [getCol] at hg
    simp [setCol, recQ, qAdv, hg]
    ring

theorem recR_setCol_delta (r : SegRecord) (o : CigarOp) (col : CountCol) (v adv : Int)
    (hcol : opToColumnName o = some col) (hg : getCol r col = some v) :
    recR (setCol r col (v + adv)) = recR r + rAdv (some o) adv := by
  cases o with
  | M => simp [opToColumnName] at hcol
  | N => simp [opToColumnName] at hcol
  | S => simp [opToColumnName] at hcol
  | H => simp [opToColumnName] at hcol
  | P => simp [opToColumnName] at hcol
  | B => simp [opToColumnName] at hcol
  | I =>
    simp only [opToColumnName, Option.some.injEq] at hcol
    subst hcol
    simp [setCol, recR, rAdv]
  | D =>
    simp only [opToColumnName, Option.some.injEq] at hcol
    subst hcol
    simp only [getCol] at hg
    simp [setCol, recR, rAdv, hg]
    ring
  | eq =>
    simp only [opToColumnName, Option.some.injEq] at hcol
    subst hcol
    simp only [getCol] at hg
    simp [setCol, recR, rAdv, hg]
    ring
  | X =>
    simp only [opToColumnName, Option.some.injEq] at hcol
    subst hcol
    simp only [getCol] at hg
    simp [setCol, recR, rAdv, hg]
    ring

/-- Everything `accrueCounts` guarantees about a successful count
update. -/
theorem accrueCounts_spec (ctx : CutCtx) (res : List (String × SegRecord))
    (name : String) (o : CigarOp) (adv : Int) (res' : List (String × SegRecord))
    (h : accrueCounts ctx res name o adv = .ok res') :
    res'.map Prod.fst = res.map Prod.fst ∧
    ((res.map Prod.fst).Nodup → ctx.return_counts = true →
      sumQ res' = sumQ res + qAdv (some o) adv ∧
      sumR res' = sumR res + rAdv (some o) adv) := by
  unfold accrueCounts at h
  by_cases hc : ctx.return_counts = true
  · rw [if_pos hc] at h
    cases hcol : opToColumnName o with
    | none => rw [hcol] at h; cases h
    | some col =>
      rw [hcol] at h
      dsimp only at h
      cases hl : res.lookup name with
      | none => rw [hl] at h; cases h
      | some r =>
        rw [hl] at h
        dsimp only at h
        cases hg : getCol r col with
        | none => rw [hg] at h; cases h
        | some v =>
          rw [hg] at h
          dsimp only at h
          cases h
          refine ⟨updateRec_keys .., fun hnd _ => ⟨?_, ?_⟩⟩
          · have hh := sum_map_updateRec recQ res name
              (fun rr => setCol rr col (v + adv)) r (qAdv (some o) adv) hnd hl
              (recQ_setCol_delta r o col v adv hcol hg)
            simpa [sumQ] using hh
          · have hh := sum_map_updateRec recR res name
              (fun rr => setCol rr col (v + adv)) r (rAdv (some o) adv) hnd hl
              (recR_setCol_delta r o col v adv hcol hg)
            simpa [sumR] using hh
  · rw [if_neg hc] at h
    cases h
    exact ⟨rfl, fun _ hcc => absurd hcc hc⟩

/-- Everything `accrueCigar` guarantees: keys and counters unchanged. -/
theorem accrueCigar_spec (ctx : CutCtx) (res : List (String × SegRecord))
    (name : String) (o : CigarOp) (adv : Int) (res' : List (String × SegRecord))
    (h : accrueCigar ctx res name o adv = .ok res') :
    res'.map Prod.fst = res.map Prod.fst ∧ sumQ res' = sumQ res ∧ sumR res' = sumR res := by
  unfold accrueCigar at h
  by_cases hc : ctx.return_cigars = true
  · rw [if_pos hc] at h
    cases hl : res.lookup name with
    | none => rw [hl] at h; cases h
    | some r =>
      rw [hl] at h
      dsimp only at h
      cases hcv : r.cigar with
      | none => rw [hcv] at h; cases h
      | some cv =>
        cases cv with
        | str st => rw [hcv] at h; cases h
        | ops l =>
          rw [hcv] at h
          dsimp only at h
          cases h
          refine ⟨updateRec_keys .., ?_, ?_⟩
          · exact sum_map_updateRec_pointwise recQ res name _ (fun rr => rfl)
          · exact sum_map_updateRec_pointwise recR res name _ (fun rr => rfl)
  · rw [if_neg hc] at h
    cases h
    exact ⟨rfl, rfl, rfl⟩

/-- Everything `applyAdvance` guarantees about a successful advance. -/
theorem applyAdvance_spec (ctx : CutCtx) (s : CutState) (adv : Int) (s3 : CutState)
    (h : applyAdvance ctx s adv = .ok s3) :
    s3.first = s.first ∧ s3.segment_idx = s.segment_idx ∧ s3.cigar_idx = s.cigar_idx ∧
    s3.op = s.op ∧ s3.segment_name = s.segment_name ∧
    s3.query_idx = s.query_idx + qAdv s.op adv ∧
    s3.op_length = some (s.op_length.getD 0 - adv) ∧
    s3.segment_length = s.segment_length - rAdv s.op adv ∧
    s3.res.map Prod.fst = s.res.map Prod.fst ∧
    ((s.res.map Prod.fst).Nodup → ctx.segments = none → ctx.return_counts = true →
      sumQ s3.res = sumQ s.res + qAdv s.op adv ∧
      sumR s3.res = sumR s.res + rAdv s.op adv) := by
  unfold applyAdvance at h
  cases hop : s.op with
  | none =>
    rw [hop] at h
    dsimp only at h
    cases h
    refine ⟨rfl, rfl, rfl, rfl, rfl, ?_, rfl, ?_, rfl, fun _ _ _ => ⟨?_, ?_⟩⟩
    · exact ite_add_qAdv none s.query_idx adv
    · exact ite_sub_rAdv none s.segment_length adv
    · simp [qAdv]
    · simp [rAdv]
  | some o =>
    rw [hop] at h
    dsimp only at h
    by_cases hpf : passesFilter ctx s.segment_name = true
    · rw [if_pos hpf] at h
      cases hac : accrueCounts ctx s.res s.segment_name o adv with
      | error e => rw [hac] at h; cases h
      | ok res1 =>
        rw [hac] at h
        dsimp only at h
        cases hag : accrueCigar ctx res1 s.segment_name o adv with
        | error e => rw [hag] at h; cases h
        | ok res2 =>
          rw [hag] at h
          dsimp only at h
          cases h
          obtain ⟨hk1, hsums1⟩ := accrueCounts_spec ctx s.res s.segment_name o adv res1 hac
          obtain ⟨hk2, hq2, hr2⟩ := accrueCigar_spec ctx res1 s.segment_name o adv res2 hag
          refine ⟨rfl, rfl, rfl, rfl, rfl, ?_, rfl, ?_, by rw [hk2, hk1],
            fun hnd _ hCnt => ?_⟩
          · exact ite_add_qAdv (some o) s.query_idx adv
          · exact ite_sub_rAdv (some o) s.segment_length adv
          · obtain ⟨hq1, hr1⟩ := hsums1 hnd hCnt
            exact ⟨by rw [hq2, hq1], by rw [hr2, hr1]⟩
    · rw [if_neg hpf] at h
      cases h
      refine ⟨rfl, rfl, rfl, rfl, rfl, ?_, rfl, ?_, rfl,
        fun hnd hSeg hCnt => absurd hpf ?_⟩
      · exact ite_add_qAdv (some o) s.query_idx adv
      · exact ite_sub_rAdv (some o) s.segment_length adv
      · simp [passesFilter, hSeg]

/-- Case split of a successful `stepAdvance`. -/
theorem stepAdvance_cases (ctx : CutCtx) (s : CutState) (s3 : CutState)
    (h : stepAdvance ctx s = .ok s3) :
    ∃ ol, s.op_length = some ol ∧
      ((s.op = some CigarOp.I ∧ applyAdvance ctx s ol = .ok s3) ∨
       (s.op ≠ some CigarOp.I ∧ applyAdvance ctx s (min ol s.segment_length) = .ok s3)) := by
  unfold stepAdvance at h
  cases hol : s.op_length with
  | none => rw [hol] at h; cases h
  | some ol =>
    rw [hol] at h
    dsimp only at h
    split_ifs at h with hI
    · exact ⟨ol, rfl, Or.inl ⟨hI, h⟩⟩
    · exact ⟨ol, rfl, Or.inr ⟨hI, h⟩⟩

/-- Case split of a successful `stepBlock2`. -/
theorem stepBlock2_cases (ctx : CutCtx) (s s2 : CutState)
    (h : stepBlock2 ctx s = .ok s2) :
    (s.first = true ∧ fetchOp ctx { s with first := false } s.cigar_idx = .ok s2) ∨
    (s.first = false ∧ ∃ ol, s.op_length = some ol ∧
      ((ol = 0 ∧ fetchOp ctx s (s.cigar_idx + 1) = .ok s2) ∨ (ol ≠ 0 ∧ s2 = s))) := by
  unfold stepBlock2 at h
  by_cases hf : s.first = true
  · rw [if_pos hf] at h
    exact Or.inl ⟨hf, h⟩
  · rw [if_neg hf] at h
    have hff : s.first = false := by
      cases hv : s.first
      · rfl
      · exact absurd hv hf
    cases hol : s.op_length with
    | none => rw [hol] at h; cases h
    | some ol =>
      rw [hol] at h
      dsimp only at h
      split_ifs at h with h0
      · exact Or.inr ⟨hff, ol, rfl, Or.inl ⟨h0, h⟩⟩
      · cases h
        exact Or.inr ⟨hff, ol, rfl, Or.inr ⟨h0, rfl⟩⟩

/-- Case split of a successful `exhaustedCheck`. -/
theorem exhaustedCheck_ok (ctx : CutCtx) (s : CutState)
    (res : List (String × SegRecord)) (r : Sum CutState (List (String × SegRecord)))
    (h : exhaustedCheck ctx s res = .ok r) :
    r = .inr res ∧ ¬(s.cigar_idx < ctx.c1.length) ∧ s.op_length = some 0 := by
  unfold exhaustedCheck at h
  split at h
  · cases h
  · rename_i h1
    cases hol : s.op_length with
    | none => rw [hol] at h; cases h
    | some ol =>
      rw [hol] at h
      dsimp only at h
      split at h
      · cases h
      · rename_i h2
        cases h
        have hz : ol = 0 := by omega
        exact ⟨rfl, h1, by rw [hz]⟩

/-- Case split of a successful `stepBlock1`. -/
theorem stepBlock1_cases (ctx : CutCtx) (s : CutState)
    (r : Sum CutState (List (String × SegRecord)))
    (h : stepBlock1 ctx s = .ok r) :
    (r = .inl s ∧ s.first = false ∧ (s.op = some CigarOp.I ∨ s.segment_length ≠ 0)) ∨
    (s.first = true ∧ ctx.segLens.length = 0 ∧ r = .inr s.res ∧
      ¬(s.cigar_idx < ctx.c1.length) ∧ s.op_length = some 0) ∨
    (∃ s1, r = .inl s1 ∧ s.first = true ∧ ctx.segLens.length ≠ 0 ∧
      initSegment ctx s 0 = .ok s1) ∨
    (∃ s1 res', r = .inl s1 ∧ s.first = false ∧ s.op ≠ some CigarOp.I ∧
      s.segment_length = 0 ∧ finalizeSegment ctx s = .ok res' ∧
      s.segment_idx + 1 ≠ ctx.segLens.length ∧
      initSegment ctx { s with res := res' } (s.segment_idx + 1) = .ok s1) ∨
    (∃ res', r = .inr res' ∧ s.first = false ∧ s.op ≠ some CigarOp.I ∧
      s.segment_length = 0 ∧ finalizeSegment ctx s = .ok res' ∧
      s.segment_idx + 1 = ctx.segLens.length ∧
      ¬(s.cigar_idx < ctx.c1.length) ∧ s.op_length = some 0) := by
  unfold stepBlock1 at h
  split at h
  · rename_i hc
    split at h
    · rename_i hf
      split at h
      · rename_i h0
        obtain ⟨hr, hcig, hol⟩ := exhaustedCheck_ok ctx s s.res r h
        exact Or.inr (Or.inl ⟨hf, h0.symm, hr, hcig, hol⟩)
      · rename_i h0
        cases hi : initSegment ctx s 0 with
        | error e => rw [hi] at h; cases h
        | ok s1 =>
          rw [hi] at h
          cases h
          exact Or.inr (Or.inr (Or.inl ⟨s1, rfl, hf, fun hz => h0 hz.symm, rfl⟩))
    · rename_i hf
      have hff : s.first = false := by
        cases hv : s.first
        · rfl
        · exact absurd hv hf
      have hcond : s.op ≠ some CigarOp.I ∧ s.segment_length = 0 := by
        rcases hc with ⟨hc1, hc2⟩
        constructor
        · rcases hc1 with hc1 | hc1
          · exact absurd hc1 hf
          · exact hc1
        · rcases hc2 with hc2 | hc2
          · exact absurd hc2 hf
          · exact hc2
      cases hfin : finalizeSegment ctx s with
      | error e => rw [hfin] at h; cases h
      | ok res' =>
        rw [hfin] at h
        dsimp only at h
        split at h
        · rename_i hlen
          obtain ⟨hr, hcig, hol⟩ := exhaustedCheck_ok ctx { s with res := res' } res' r h
          exact Or.inr (Or.inr (Or.inr (Or.inr
            ⟨res', hr, hff, hcond.1, hcond.2, rfl, hlen, hcig, hol⟩)))
        · rename_i hlen
          cases hi : initSegment ctx { s with res := res' } (s.segment_idx + 1) with
          | error e => rw [hi] at h; cases h
          | ok s1 =>
            rw [hi] at h
            cases h
            exact Or.inr (Or.inr (Or.inr (Or.inl
              ⟨s1, res', rfl, hff, hcond.1, hcond.2, rfl, hlen, hi⟩)))
  · rename_i hc
    cases h
    have hff : s.first = false := by
      cases hv : s.first
      · rfl
      · exact absurd ⟨Or.inl hv, Or.inl hv⟩ hc
    have hor : s.op = some CigarOp.I ∨ s.segment_length ≠ 0 := by
      by_contra hno
      push_neg at hno
      refine hc ⟨Or.inr ?_, Or.inr hno.2⟩
      simpa using hno.1
    exact Or.inl ⟨rfl, hff, hor⟩

/-! List arithmetic helpers for the cursor invariants. -/

theorem sum_take_succ_getD (l : List Int) (k : Nat) (hk : k < l.length) :
    (l.take (k + 1)).sum = (l.take k).sum + l.getD k 0 := by
  rw [List.sum_take_succ l k hk, List.getD_eq_getElem l 0 hk]

theorem totalR_drop_succ (c : List (CigarOp × Int)) (k : Nat) (hk : k < c.length) :
    totalR (c.drop k) = rlen (c.getD k (CigarOp.M, 0)) + totalR (c.drop (k + 1)) := by
  rw [List.drop_eq_getElem_cons hk]
  simp only [totalR, List.map_cons, List.sum_cons, List.getD_eq_getElem c _ hk]

theorem totalQ_drop_succ (c : List (CigarOp × Int)) (k : Nat) (hk : k < c.length) :
    totalQ (c.drop k) = qlen (c.getD k (CigarOp.M, 0)) + totalQ (c.drop (k + 1)) := by
  rw [List.drop_eq_getElem_cons hk]
  simp only [totalQ, List.map_cons, List.sum_cons, List.getD_eq_getElem c _ hk]

theorem totalR_drop_past (c : List (CigarOp × Int)) (k : Nat) (hk : c.length ≤ k) :
    totalR (c.drop k) = 0 := by
  rw [List.drop_eq_nil_of_le hk]
  rfl

theorem totalQ_drop_past (c : List (CigarOp × Int)) (k : Nat) (hk : c.length ≤ k) :
    totalQ (c.drop k) = 0 := by
  rw [List.drop_eq_nil_of_le hk]
  rfl

theorem rAdv_sub (op : Option CigarOp) (a b : Int) :
    rAdv op (a - b) = rAdv op a - rAdv op b := by
  unfold rAdv
  split_ifs <;> ring

theorem qAdv_sub (op : Option CigarOp) (a b : Int) :
    qAdv op (a - b) = qAdv op a - qAdv op b := by
  unfold qAdv
  split_ifs <;> ring

theorem rAdv_zero (op : Option CigarOp) : rAdv op 0 = 0 := by
  unfold rAdv
  split_ifs <;> rfl

theorem qAdv_zero (op : Option CigarOp) : qAdv op 0 = 0 := by
  unfold qAdv
  split_ifs <;> rfl

theorem rAdv_some_rlen (p : CigarOp × Int) : rAdv (some p.1) p.2 = rlen p := by
  cases hp : p.1 <;> simp [rAdv, rlen, hp]

theorem qAdv_some_qlen (p : CigarOp × Int) : qAdv (some p.1) p.2 = qlen p := by
  cases hp : p.1 <;> simp [qAdv, qlen, hp]

theorem remR_some (ctx : CutCtx) (s : CutState) (ol : Int)
    (hol : s.op_length = some ol) :
    remR ctx s = rAdv s.op ol + totalR (ctx.c1.drop (s.cigar_idx + 1)) := by
  unfold remR
  rw [hol]

theorem remR_none (ctx : CutCtx) (s : CutState) (hol : s.op_length = none) :
    remR ctx s = totalR (ctx.c1.drop s.cigar_idx) := by
  unfold remR
  rw [hol]

theorem remQ_some (ctx : CutCtx) (s : CutState) (ol : Int)
    (hol : s.op_length = some ol) :
    remQ ctx s = qAdv s.op ol + totalQ (ctx.c1.drop (s.cigar_idx + 1)) := by
  unfold remQ
  rw [hol]

theorem remQ_none (ctx : CutCtx) (s : CutState) (hol : s.op_length = none) :
    remQ ctx s = totalQ (ctx.c1.drop s.cigar_idx) := by
  unfold remQ
  rw [hol]

/-! The reference-length bookkeeping invariant of the co-walk: outside
the first iteration, the path length consumed so far plus the
reference-consuming length still ahead of the cigar cursor equals the
total reference-consuming length of the processed cigar. -/

def InvC2 (ctx : CutCtx) (s : CutState) : Prop :=
  if s.first = true then
    s.segment_idx = 0 ∧ s.cigar_idx = 0 ∧ s.op_length = none
  else
    ((ctx.segLens.take (s.segment_idx + 1)).sum - s.segment_length) + remR ctx s =
      totalR ctx.c1 ∧ s.segment_idx < ctx.segLens.length

theorem invC2_init (ctx : CutCtx) : InvC2 ctx initState := by
  simp [InvC2, initState]

/-- Preservation of `InvC2` along one loop iteration. -/
theorem cutStep_next_invC2 (ctx : CutCtx) (s s' : CutState) (hInv : InvC2 ctx s)
    (h : cutStep ctx s = .next s') : InvC2 ctx s' := by
  unfold cutStep at h
  cases hb1 : stepBlock1 ctx s with
  | error e => rw [hb1] at h; cases h
  | ok r =>
    rw [hb1] at h
    cases r with
    | inr res => dsimp only at h; cases h
    | inl s1 =>
      dsimp only at h
      cases hb2 : stepBlock2 ctx s1 with
      | error e => rw [hb2] at h; cases h
      | ok s2 =>
        rw [hb2] at h
        dsimp only at h
        cases hb3 : stepAdvance ctx s2 with
        | error e => rw [hb3] at h; cases h
        | ok s3 =>
          rw [hb3] at h
          cases h
          -- the advanced state is s'; establish its invariant from the
          -- one for s2, which we derive from the block1/block2 facts.
          obtain ⟨ol2, hol2, hadv⟩ := stepAdvance_cases ctx s2 s' hb3
          have happ : ∃ adv, applyAdvance ctx s2 adv = .ok s' := by
            rcases hadv with ⟨_, ha⟩ | ⟨_, ha⟩
            · exact ⟨ol2, ha⟩
            · exact ⟨min ol2 s2.segment_length, ha⟩
          obtain ⟨adv, hadv'⟩ := happ
          obtain ⟨hf3, hsi3, hci3, hop3, hsn3, hq3, hol3, hsl3, hk3, _⟩ :=
            applyAdvance_spec ctx s2 adv s' hadv'
          suffices h2 :
              ((ctx.segLens.take (s2.segment_idx + 1)).sum - s2.segment_length) +
                remR ctx s2 = totalR ctx.c1 ∧
              s2.segment_idx < ctx.segLens.length ∧ s2.first = false by
            unfold InvC2
            rw [hf3, h2.2.2]
            simp only [Bool.false_eq_true, if_false]
            refine ⟨?_, by rw [hsi3]; exact h2.2.1⟩
            rw [hsi3, hsl3]
            have hrem3 : remR ctx s' = remR ctx s2 - rAdv s2.op adv := by
              have e1 := remR_some ctx s' (s2.op_length.getD 0 - adv) hol3
              have e2 := remR_some ctx s2 ol2 hol2
              rw [hop3, hci3, hol2] at e1
              simp only [Option.getD_some] at e1
              rw [e1, e2, rAdv_sub]
              ring
            rw [hrem3]
            have := h2.1
            linarith [this]
          -- now work backwards through block2 and block1
          rcases stepBlock2_cases ctx s1 s2 hb2 with ⟨hf1, hfetch⟩ | ⟨hf1, olx, holx, hrest⟩
          · -- s1 was still in the first iteration: block1 initialized
            -- segment 0 and block2 loaded the first operation.
            rcases stepBlock1_cases ctx s (Sum.inl s1) hb1 with
              ⟨hr, hsf, _⟩ | ⟨hsf, _, hr, _⟩ | ⟨s1', hr, hsf, hlen0, hinit⟩ |
              ⟨s1', res', hr, hsf, _⟩ | ⟨res', hr, _⟩
            · cases hr; rw [hf1] at hsf; cases hsf
            · cases hr
            · cases hr
              obtain ⟨hif, hii, hic, hiq, hiop, hiol, hisl, hisn, _, _, _⟩ :=
                initSegment_spec ctx s 0 s1 hinit
              have hsInv := hInv
              unfold InvC2 at hsInv
              rw [hsf] at hsInv
              simp only [if_true] at hsInv
              obtain ⟨hz0, hzc, hzol⟩ := hsInv
              obtain ⟨hfr, hfq, hfsi, hfsl, hff, hfsn, hfci, hfdisj⟩ :=
                fetchOp_spec ctx { s1 with first := false } s1.cigar_idx s2 hfetch
              have hciz : s1.cigar_idx = 0 := by rw [hic, hzc]
              rcases hfdisj with ⟨hend, hopn, holn⟩ | ⟨hlt, hopv, holv⟩
              · -- empty synthesized cigar: op_length is still unbound and
                -- the advance step cannot have succeeded.
                exfalso
                have : s2.op_length = none := by
                  rw [holn]
                  show s1.op_length = none
                  rw [hiol, hzol]
                rw [this] at hol2
                cases hol2
              · refine ⟨?_, ?_, ?_⟩
                · rw [hfsi]
                  show ((ctx.segLens.take (s1.segment_idx + 1)).sum - s2.segment_length) +
                    remR ctx s2 = totalR ctx.c1
                  rw [hfsl]
                  show ((ctx.segLens.take (s1.segment_idx + 1)).sum - s1.segment_length) +
                    remR ctx s2 = totalR ctx.c1
                  rw [hii, hisl]
                  have h0lt : 0 < ctx.segLens.length := Nat.pos_of_ne_zero hlen0
                  have htake1 : (ctx.segLens.take (0 + 1)).sum = ctx.segLens.getD 0 0 := by
                    rw [sum_take_succ_getD ctx.segLens 0 h0lt]
                    simp
                  rw [htake1]
                  have hremv : remR ctx s2 = totalR ctx.c1 := by
                    have e2 := remR_some ctx s2 (ctx.c1.getD s1.cigar_idx (CigarOp.M, 0)).2 holv
                    rw [e2, hopv, hfci, rAdv_some_rlen, hciz]
                    rw [hciz] at hlt
                    rw [← totalR_drop_succ ctx.c1 0 hlt]
                    rw [List.drop_zero]
                  rw [hremv]
                  ring
                · rw [hfsi, hii]
                  exact Nat.pos_of_ne_zero hlen0
                · rw [hff]
            · rename_i hrest
              obtain ⟨_, _, _, _, hinit⟩ := hrest
              cases hr
              have hx : s1.first = false := by
                rw [(initSegment_spec ctx _ (s.segment_idx + 1) s1 hinit).1]
                exact hsf
              rw [hx] at hf1
              cases hf1
            · cases hr
          · -- ordinary iteration: block1 either skipped or moved one
            -- segment forward; block2 possibly loaded the next operation.
            have hInv1 :
                ((ctx.segLens.take (s1.segment_idx + 1)).sum - s1.segment_length) +
                  remR ctx s1 = totalR ctx.c1 ∧ s1.segment_idx < ctx.segLens.length := by
              rcases stepBlock1_cases ctx s (Sum.inl s1) hb1 with
                ⟨hr, hsf, _⟩ | ⟨hsf, _, hr, _⟩ | ⟨s1', hr, hsf, hlen0, hinit⟩ |
                ⟨s1', res', hr, hsf, _, hsl0, hfin, hlen, hinit⟩ | ⟨res', hr, _⟩
              · cases hr
                have h0 := hInv
                unfold InvC2 at h0
                rw [hsf] at h0
                simpa using h0
              · cases hr
              · cases hr
                obtain ⟨hif, _⟩ := initSegment_spec ctx s 0 s1 hinit
                rw [← hif] at hsf
                rw [hsf] at hf1
                cases hf1
              · cases hr
                obtain ⟨hif, hii, hic, hiq, hiop, hiol, hisl, hisn, _, _, _⟩ :=
                  initSegment_spec ctx { s with res := res' } (s.segment_idx + 1) s1 hinit
                have h0 := hInv
                unfold InvC2 at h0
                rw [hsf] at h0
                simp only [Bool.false_eq_true, if_false] at h0
                obtain ⟨heq, hidx⟩ := h0
                have hidx1 : s.segment_idx + 1 < ctx.segLens.length := by omega
                constructor
                · rw [hii, hisl]
                  have hrem1 : remR ctx s1 = remR ctx s := by
                    unfold remR
                    rw [hiol, hic, hiop]
                  rw [hrem1]
                  rw [sum_take_succ_getD ctx.segLens (s.segment_idx + 1) hidx1]
                  rw [hsl0] at heq
                  linarith [heq]
                · rw [hii]
                  exact hidx1
              · cases hr
            rcases hrest with ⟨holz, hfetch⟩ | ⟨holnz, hs2eq⟩
            · obtain ⟨hfr, hfq, hfsi, hfsl, hff, hfsn, hfci, hfdisj⟩ :=
                fetchOp_spec ctx s1 (s1.cigar_idx + 1) s2 hfetch
              refine ⟨?_, by rw [hfsi]; exact hInv1.2, by rw [hff]; exact hf1⟩
              rw [hfsi, hfsl]
              have hrem1 : remR ctx s1 = totalR ctx.c1 -
                  ((ctx.segLens.take (s1.segment_idx + 1)).sum - s1.segment_length) := by
                linarith [hInv1.1]
              have hremold : remR ctx s1 = totalR (ctx.c1.drop (s1.cigar_idx + 1)) := by
                rw [remR_some ctx s1 olx holx, holz, rAdv_zero]
                ring
              rcases hfdisj with ⟨hend, hopn, holn⟩ | ⟨hlt, hopv, holv⟩
              · have hge : ctx.c1.length ≤ s1.cigar_idx + 1 := by omega
                have hrem2 : remR ctx s2 = remR ctx s1 := by
                  have e2 := remR_some ctx s2 olx (by rw [holn, holx])
                  rw [e2, hfci, holz, rAdv_zero, hremold]
                  rw [totalR_drop_past ctx.c1 (s1.cigar_idx + 1) hge,
                    totalR_drop_past ctx.c1 (s1.cigar_idx + 1 + 1) (by omega)]
                  ring
                rw [hrem2]
                linarith [hInv1.1]
              · have hrem2 : remR ctx s2 = remR ctx s1 := by
                  have e2 := remR_some ctx s2
                    (ctx.c1.getD (s1.cigar_idx + 1) (CigarOp.M, 0)).2 holv
                  rw [e2, hopv, hfci, rAdv_some_rlen, hremold]
                  rw [totalR_drop_succ ctx.c1 (s1.cigar_idx + 1) hlt]
                rw [hrem2]
                linarith [hInv1.1]
            · rw [hs2eq]
              exact ⟨hInv1.1, hInv1.2, hf1⟩

/-- Termination of the loop with `break` implies the bookkeeping
identity: the whole path length equals the reference-consuming total of
the processed cigar. -/
theorem cutStep_done_C2 (ctx : CutCtx) (s : CutState)
    (res : List (String × SegRecord)) (hInv : InvC2 ctx s)
    (h : cutStep ctx s = .done res) : ctx.segLens.sum = totalR ctx.c1 := by
  unfold cutStep at h
  cases hb1 : stepBlock1 ctx s with
  | error e => rw [hb1] at h; cases h
  | ok r =>
    rw [hb1] at h
    cases r with
    | inl s1 =>
      dsimp only at h
      cases hb2 : stepBlock2 ctx s1 with
      | error e => rw [hb2] at h; cases h
      | ok s2 =>
        rw [hb2] at h
        dsimp only at h
        cases hb3 : stepAdvance ctx s2 with
        | error e => rw [hb3] at h; cases h
        | ok s3 => rw [hb3] at h; cases h
    | inr resr =>
      dsimp only at h
      cases h
      rcases stepBlock1_cases ctx s (Sum.inr res) hb1 with
        ⟨hr, _⟩ | ⟨hsf, hlen, hr, hcig, holz⟩ | ⟨s1', hr, _⟩ |
        ⟨s1', res', hr, _⟩ | ⟨res', hr, hsf, hopI, hsl0, hfin, hlen, hcig, holz⟩
      · cases hr
      · -- first iteration with an empty segment list: the invariant says
        -- op_length is still unbound, contradicting the check's read.
        have h0 := hInv
        unfold InvC2 at h0
        rw [hsf] at h0
        simp only [if_true] at h0
        rw [h0.2.2] at holz
        cases holz
      · cases hr
      · cases hr
      · cases hr
        have h0 := hInv
        unfold InvC2 at h0
        rw [hsf] at h0
        simp only [Bool.false_eq_true, if_false] at h0
        obtain ⟨heq, hidx⟩ := h0
        have hremz : remR ctx s = 0 := by
          rw [remR_some ctx s 0 holz, rAdv_zero]
          have hge : ctx.c1.length ≤ s.cigar_idx + 1 := by omega
          rw [totalR_drop_past ctx.c1 (s.cigar_idx + 1) hge]
          ring
        rw [hremz, hsl0] at heq
        have htake : ctx.segLens.take (s.segment_idx + 1) = ctx.segLens := by
          apply List.take_of_length_le
          omega
        rw [htake] at heq
        linarith [heq]

theorem nodup_snoc (l : List String) (a : String) (h : l.Nodup) (ha : a ∉ l) :
    (l ++ [a]).Nodup := by
  simp [List.nodup_append, h, ha]

/-! The record-conservation invariant of the co-walk, for runs without a
segment allow-list and with counters recorded: the counters already
attributed to records track the query cursor exactly, and the
reference-consuming counters track the consumed path prefix. -/

def InvC1 (ctx : CutCtx) (s : CutState) : Prop :=
  (s.res.map Prod.fst).Nodup ∧
  sumQ s.res = s.query_idx ∧
  s.query_idx + remQ ctx s = totalQ ctx.c1 ∧
  (if s.first = true then
    s.res = [] ∧ s.query_idx = 0 ∧ s.segment_idx = 0 ∧ s.cigar_idx = 0 ∧
      s.op_length = none
  else
    sumR s.res + s.segment_length = (ctx.segLens.take (s.segment_idx + 1)).sum ∧
      s.segment_idx < ctx.segLens.length)

theorem invC1_init (ctx : CutCtx) : InvC1 ctx initState := by
  refine ⟨by simp [initState], by simp [initState, sumQ], ?_, by simp [initState]⟩
  rw [remQ_none ctx initState rfl]
  simp [initState, totalQ]

/-- Preservation of `InvC1` along one loop iteration. -/
theorem cutStep_next_invC1 (ctx : CutCtx) (s s' : CutState)
    (hSeg : ctx.segments = none) (hCnt : ctx.return_counts = true)
    (hInv : InvC1 ctx s) (h : cutStep ctx s = .next s') : InvC1 ctx s' := by
  obtain ⟨hnd, hj1, hj2, hj3⟩ := hInv
  unfold cutStep at h
  cases hb1 : stepBlock1 ctx s with
  | error e => rw [hb1] at h; cases h
  | ok r =>
    rw [hb1] at h
    cases r with
    | inr res => dsimp only at h; cases h
    | inl s1 =>
      dsimp only at h
      cases hb2 : stepBlock2 ctx s1 with
      | error e => rw [hb2] at h; cases h
      | ok s2 =>
        rw [hb2] at h
        dsimp only at h
        cases hb3 : stepAdvance ctx s2 with
        | error e => rw [hb3] at h; cases h
        | ok s3 =>
          rw [hb3] at h
          cases h
          obtain ⟨ol2, hol2, hadv⟩ := stepAdvance_cases ctx s2 s' hb3
          have happ : ∃ adv, applyAdvance ctx s2 adv = .ok s' := by
            rcases hadv with ⟨_, ha⟩ | ⟨_, ha⟩
            · exact ⟨ol2, ha⟩
            · exact ⟨min ol2 s2.segment_length, ha⟩
          obtain ⟨adv, hadv'⟩ := happ
          obtain ⟨hf3, hsi3, hci3, hop3, hsn3, hq3, hol3, hsl3, hk3, hsums3⟩ :=
            applyAdvance_spec ctx s2 adv s' hadv'
          suffices h2 : (s2.res.map Prod.fst).Nodup ∧ sumQ s2.res = s2.query_idx ∧
              s2.query_idx + remQ ctx s2 = totalQ ctx.c1 ∧
              sumR s2.res + s2.segment_length =
                (ctx.segLens.take (s2.segment_idx + 1)).sum ∧
              s2.segment_idx < ctx.segLens.length ∧ s2.first = false by
            obtain ⟨h2nd, h2j1, h2j2, h2j3, h2idx, h2f⟩ := h2
            obtain ⟨hqs, hrs⟩ := hsums3 h2nd hSeg hCnt
            have hrem3 : remQ ctx s' = remQ ctx s2 - qAdv s2.op adv := by
              have e1 := remQ_some ctx s' (s2.op_length.getD 0 - adv) hol3
              have e2 := remQ_some ctx s2 ol2 hol2
              rw [hop3, hci3, hol2] at e1
              simp only [Option.getD_some] at e1
              rw [e1, e2, qAdv_sub]
              ring
            refine ⟨by rw [hk3]; exact h2nd, ?_, ?_, ?_⟩
            · rw [hqs, hq3, h2j1]
            · rw [hq3, hrem3]
              linarith [h2j2]
            · unfold InvC1 at *
              rw [hf3, h2f]
              simp only [Bool.false_eq_true, if_false]
              refine ⟨?_, by rw [hsi3]; exact h2idx⟩
              rw [hrs, hsl3, hsi3]
              linarith [h2j3]
          rcases stepBlock2_cases ctx s1 s2 hb2 with ⟨hf1, hfetch⟩ | ⟨hf1, olx, holx, hrest⟩
          · -- first iteration: block1 initialized segment 0, block2
            -- loads the first operation.
            rcases stepBlock1_cases ctx s (Sum.inl s1) hb1 with
              ⟨hr, hsf, _⟩ | ⟨hsf, _, hr, _⟩ | ⟨s1', hr, hsf, hlen0, hinit⟩ |
              ⟨s1', res', hr, hsf, hrest1⟩ | ⟨res', hr, _⟩
            · cases hr; rw [hf1] at hsf; cases hsf
            · cases hr
            · cases hr
              obtain ⟨hif, hii, hic, hiq, hiop, hiol, hisl, hisn, hisq, hisr, hidisj⟩ :=
                initSegment_spec ctx s 0 s1 hinit
              have hz := hj3
              rw [hsf] at hz
              simp only [if_true] at hz
              obtain ⟨hz0, hzq, hzi, hzc, hzol⟩ := hz
              obtain ⟨hfr, hfq, hfsi, hfsl, hff, hfsn, hfci, hfdisj⟩ :=
                fetchOp_spec ctx { s1 with first := false } s1.cigar_idx s2 hfetch
              have hciz : s1.cigar_idx = 0 := by rw [hic, hzc]
              rcases hfdisj with ⟨hend, hopn, holn⟩ | ⟨hlt, hopv, holv⟩
              · exfalso
                have hnone : s2.op_length = none := by
                  rw [holn]
                  show s1.op_length = none
                  rw [hiol, hzol]
                rw [hnone] at hol2
                cases hol2
              · have hres2 : s2.res = s1.res := hfr
                have hkeys1 : (s1.res.map Prod.fst).Nodup := by
                  rcases hidisj with ⟨hre, hpf⟩ | ⟨hre, hpf, hfresh⟩
                  · rw [hre]; exact hnd
                  · rw [hre]
                    simp only [List.map_append, List.map_cons, List.map_nil]
                    exact nodup_snoc _ _ hnd hfresh
                refine ⟨by rw [hres2]; exact hkeys1, ?_, ?_, ?_, ?_, by rw [hff]⟩
                · rw [hres2, hisq, hz0, hfq]
                  show sumQ ([] : List (String × SegRecord)) = s1.query_idx
                  rw [hiq, hzq]
                  rfl
                · rw [hfq]
                  show s1.query_idx + remQ ctx s2 = totalQ ctx.c1
                  rw [hiq, hzq]
                  have hremv : remQ ctx s2 = totalQ ctx.c1 := by
                    have e2 := remQ_some ctx s2 (ctx.c1.getD s1.cigar_idx (CigarOp.M, 0)).2 holv
                    rw [e2, hopv, hfci, qAdv_some_qlen, hciz]
                    rw [hciz] at hlt
                    rw [← totalQ_drop_succ ctx.c1 0 hlt]
                    rw [List.drop_zero]
                  rw [hremv]
                  ring
                · rw [hres2, hisr, hz0, hfsl]
                  show sumR ([] : List (String × SegRecord)) +
                    s1.segment_length = (ctx.segLens.take (s2.segment_idx + 1)).sum
                  rw [hfsi, hisl, hii]
                  have h0lt : 0 < ctx.segLens.length := Nat.pos_of_ne_zero hlen0
                  rw [sum_take_succ_getD ctx.segLens 0 h0lt]
                  simp [sumR]
                · rw [hfsi, hii]
                  exact Nat.pos_of_ne_zero hlen0
            · obtain ⟨_, _, _, _, hinit⟩ := hrest1
              cases hr
              have hx : s1.first = false := by
                rw [(initSegment_spec ctx _ (s.segment_idx + 1) s1 hinit).1]
                exact hsf
              rw [hx] at hf1
              cases hf1
            · cases hr
          · -- ordinary iteration.
            have hInv1 : (s1.res.map Prod.fst).Nodup ∧ sumQ s1.res = s1.query_idx ∧
                s1.query_idx + remQ ctx s1 = totalQ ctx.c1 ∧
                sumR s1.res + s1.segment_length =
                  (ctx.segLens.take (s1.segment_idx + 1)).sum ∧
                s1.segment_idx < ctx.segLens.length := by
              rcases stepBlock1_cases ctx s (Sum.inl s1) hb1 with
                ⟨hr, hsf, _⟩ | ⟨hsf, _, hr, _⟩ | ⟨s1', hr, hsf, hlen0, hinit⟩ |
                ⟨s1', res', hr, hsf, _, hsl0, hfin, hlen, hinit⟩ | ⟨res', hr, _⟩
              · cases hr
                have hz := hj3
                rw [hsf] at hz
                simp only [Bool.false_eq_true, if_false] at hz
                exact ⟨hnd, hj1, hj2, hz.1, hz.2⟩
              · cases hr
              · cases hr
                obtain ⟨hif, _⟩ := initSegment_spec ctx s 0 s1 hinit
                rw [← hif] at hsf
                rw [hsf] at hf1
                cases hf1
              · cases hr
                obtain ⟨hif, hii, hic, hiq, hiop, hiol, hisl, hisn, hisq, hisr, hidisj⟩ :=
                  initSegment_spec ctx { s with res := res' } (s.segment_idx + 1) s1 hinit
                obtain ⟨hfq, hfr, hfk⟩ := finalizeSegment_spec ctx s res' hfin hnd
                have hz := hj3
                rw [hsf] at hz
                simp only [Bool.false_eq_true, if_false] at hz
                obtain ⟨heq, hidx⟩ := hz
                have hidx1 : s.segment_idx + 1 < ctx.segLens.length := by omega
                have hkeys' : (res'.map Prod.fst).Nodup := by rw [hfk]; exact hnd
                refine ⟨?_, ?_, ?_, ?_, by rw [hii]; exact hidx1⟩
                · rcases hidisj with ⟨hre, hpf⟩ | ⟨hre, hpf, hfresh⟩
                  · rw [hre]
                    exact hkeys'
                  · rw [hre]
                    simp only [List.map_append, List.map_cons, List.map_nil]
                    exact nodup_snoc _ _ hkeys' hfresh
                · rw [hisq]
                  show sumQ res' = s1.query_idx
                  rw [hfq, hiq]
                  show sumQ s.res = s.query_idx
                  exact hj1
                · have hrem1 : remQ ctx s1 = remQ ctx s := by
                    unfold remQ
                    rw [hiol, hic, hiop]
                  rw [hrem1, hiq]
                  show s.query_idx + remQ ctx s = totalQ ctx.c1
                  exact hj2
                · rw [hisr]
                  show sumR res' + s1.segment_length =
                    (ctx.segLens.take (s1.segment_idx + 1)).sum
                  rw [hfr, hisl, hii]
                  show sumR s.res + ctx.segLens.getD (s.segment_idx + 1) 0 =
                    (ctx.segLens.take (s.segment_idx + 1 + 1)).sum
                  rw [sum_take_succ_getD ctx.segLens (s.segment_idx + 1) hidx1]
                  rw [hsl0] at heq
                  linarith [heq]
              · cases hr
            obtain ⟨h1nd, h1j1, h1j2, h1j3, h1idx⟩ := hInv1
            rcases hrest with ⟨holz, hfetch⟩ | ⟨holnz, hs2eq⟩
            · obtain ⟨hfr, hfq, hfsi, hfsl, hff, hfsn, hfci, hfdisj⟩ :=
                fetchOp_spec ctx s1 (s1.cigar_idx + 1) s2 hfetch
              have hremold : remQ ctx s1 = totalQ (ctx.c1.drop (s1.cigar_idx + 1)) := by
                rw [remQ_some ctx s1 olx holx, holz, qAdv_zero]
                ring
              refine ⟨by rw [hfr]; exact h1nd, by rw [hfr, hfq]; exact h1j1, ?_,
                by rw [hfr, hfsl, hfsi]; exact h1j3, by rw [hfsi]; exact h1idx,
                by rw [hff]; exact hf1⟩
              rw [hfq]
              rcases hfdisj with ⟨hend, hopn, holn⟩ | ⟨hlt, hopv, holv⟩
              · have hge : ctx.c1.length ≤ s1.cigar_idx + 1 := by omega
                have hrem2 : remQ ctx s2 = remQ ctx s1 := by
                  have e2 := remQ_some ctx s2 olx (by rw [holn, holx])
                  rw [e2, hfci, holz, qAdv_zero, hremold]
                  rw [totalQ_drop_past ctx.c1 (s1.cigar_idx + 1) hge,
                    totalQ_drop_past ctx.c1 (s1.cigar_idx + 1 + 1) (by omega)]
                  ring
                rw [hrem2]
                exact h1j2
              · have hrem2 : remQ ctx s2 = remQ ctx s1 := by
                  have e2 := remQ_some ctx s2
                    (ctx.c1.getD (s1.cigar_idx + 1) (CigarOp.M, 0)).2 holv
                  rw [e2, hopv, hfci, qAdv_some_qlen, hremold]
                  rw [totalQ_drop_succ ctx.c1 (s1.cigar_idx + 1) hlt]
                rw [hrem2]
                exact h1j2
            · rw [hs2eq]
              exact ⟨h1nd, h1j1, h1j2, h1j3, h1idx, hf1⟩

/-- Termination with `break` yields both conservation identities over the
returned record map. -/
theorem cutStep_done_C1 (ctx : CutCtx) (s : CutState)
    (res : List (String × SegRecord))
    (hSeg : ctx.segments = none) (hCnt : ctx.return_counts = true)
    (hInv : InvC1 ctx s) (h : cutStep ctx s = .done res) :
    sumQ res = totalQ ctx.c1 ∧ sumR res = ctx.segLens.sum := by
  obtain ⟨hnd, hj1, hj2, hj3⟩ := hInv
  unfold cutStep at h
  cases hb1 : stepBlock1 ctx s with
  | error e => rw [hb1] at h; cases h
  | ok r =>
    rw [hb1] at h
    cases r with
    | inl s1 =>
      dsimp only at h
      cases hb2 : stepBlock2 ctx s1 with
      | error e => rw [hb2] at h; cases h
      | ok s2 =>
        rw [hb2] at h
        dsimp only at h
        cases hb3 : stepAdvance ctx s2 with
        | error e => rw [hb3] at h; cases h
        | ok s3 => rw [hb3] at h; cases h
    | inr resr =>
      dsimp only at h
      cases h
      rcases stepBlock1_cases ctx s (Sum.inr res) hb1 with
        ⟨hr, _⟩ | ⟨hsf, hlen, hr, hcig, holz⟩ | ⟨s1', hr, _⟩ |
        ⟨s1', res', hr, _⟩ | ⟨res', hr, hsf, hopI, hsl0, hfin, hlen, hcig, holz⟩
      · cases hr
      · have hz := hj3
        rw [hsf] at hz
        simp only [if_true] at hz
        rw [hz.2.2.2.2] at holz
        cases holz
      · cases hr
      · cases hr
      · cases hr
        have hz := hj3
        rw [hsf] at hz
        simp only [Bool.false_eq_true, if_false] at hz
        obtain ⟨heq, hidx⟩ := hz
        obtain ⟨hfq, hfr, hfk⟩ := finalizeSegment_spec ctx s res hfin hnd
        have hremz : remQ ctx s = 0 := by
          rw [remQ_some ctx s 0 holz, qAdv_zero]
          have hge : ctx.c1.length ≤ s.cigar_idx + 1 := by omega
          rw [totalQ_drop_past ctx.c1 (s.cigar_idx + 1) hge]
          ring
        constructor
        · rw [hfq, hj1]
          linarith [hj2, hremz]
        · rw [hfr]
          rw [hsl0] at heq
          have htake : ctx.segLens.take (s.segment_idx + 1) = ctx.segLens := by
            apply List.take_of_length_le
            omega
          rw [htake] at heq
          linarith [heq]

/-- Fuel induction: a successful loop run from an `InvC2` state forces the
path total and the cigar total to agree. -/
theorem cutLoop_ok_C2 (ctx : CutCtx) :
    ∀ (fuel : Nat) (s : CutState) (res : List (String × SegRecord)),
      InvC2 ctx s → cutLoop ctx fuel s = .ok res →
      ctx.segLens.sum = totalR ctx.c1 := by
  intro fuel
  induction fuel with
  | zero => intro s res _ h; cases h
  | succ n ih =>
    intro s res hInv h
    unfold cutLoop at h
    cases hs : cutStep ctx s with
    | fail e => rw [hs] at h; cases h
    | done r =>
      rw [hs] at h
      cases h
      exact cutStep_done_C2 ctx s res hInv hs
    | next s2 =>
      rw [hs] at h
      exact ih s2 res (cutStep_next_invC2 ctx s s2 hInv hs) h

/-- Fuel induction for the record-conservation invariant. -/
theorem cutLoop_ok_C1 (ctx : CutCtx) (hSeg : ctx.segments = none)
    (hCnt : ctx.return_counts = true) :
    ∀ (fuel : Nat) (s : CutState) (res : List (String × SegRecord)),
      InvC1 ctx s → cutLoop ctx fuel s = .ok res →
      sumQ res = totalQ ctx.c1 ∧ sumR res = ctx.segLens.sum := by
  intro fuel
  induction fuel with
  | zero => intro s res _ h; cases h
  | succ n ih =>
    intro s res hInv h
    unfold cutLoop at h
    cases hs : cutStep ctx s with
    | fail e => rw [hs] at h; cases h
    | done r =>
      rw [hs] at h
      cases h
      exact cutStep_done_C1 ctx s res hSeg hCnt hInv hs
    | next s2 =>
      rw [hs] at h
      exact ih s2 res (cutStep_next_invC1 ctx s s2 hSeg hCnt hInv hs) h

theorem cutRun_ok_C2 (ctx : CutCtx) (ksep : Option String) (res : CutResult)
    (h : cutRun ctx ksep = .ok res) : ctx.segLens.sum = totalR ctx.c1 := by
  unfold cutRun at h
  cases hloop : cutLoop ctx (cutFuel ctx) initState with
  | error e => rw [hloop] at h; cases h
  | ok r =>
    exact cutLoop_ok_C2 ctx (cutFuel ctx) initState r (invC2_init ctx) hloop

theorem cutRun_nested (ctx : CutCtx) (recs : List (String × SegRecord))
    (h : cutRun ctx none = .ok (.nested recs)) :
    cutLoop ctx (cutFuel ctx) initState = .ok recs := by
  unfold cutRun at h
  cases hloop : cutLoop ctx (cutFuel ctx) initState with
  | error e => rw [hloop] at h; cases h
  | ok r =>
    rw [hloop] at h
    simp only [flattenResult] at h
    cases h
    rfl

theorem segLens_sum (se : Bool) (l : List Int) :
    (if se then 0 :: l ++ [0] else l).sum = l.sum := by
  cases se <;> simp

/-- C2 counterexample: with `separate_ends = false` a perfectly matching
path/cigar pair — the totals agree — still raises the `PathCigarMismatch`
error ("cigar contains more bases than path", lines 151-154), because the
entry-state guard requires the current operation to be exhausted *before*
the last segment is entered.  So the error is not raised "exactly when"
the totals disagree. -/
theorem claim_C2_counterexample :
    cut_cigar [(CigarOp.eq, 3)] [">a"] [(">a", "AAA".data)] none none none
        none none none none none none none false true false false false
        false = .error Err.pathTooLong ∧
    Err.pathTooLong.isPathCigarMismatch = true ∧
    clipSynthesizedCigar [(CigarOp.eq, 3)] 3 none none none none none none =
      .ok [(CigarOp.eq, 3)] ∧
    totalR [(CigarOp.eq, (3 : Int))] = 3 :=
  ⟨rfl, rfl, rfl, rfl⟩

/-- C2 (corrected): the "exactly when" of the spec fails in the
raising-without-disagreement direction (see `claim_C2_counterexample`),
but the substantive direction holds: a successful `cut_cigar` call with
non-empty cigar and path forces the total path length (the sum of
`len(name_to_seq[name])` over path entries) to agree with the total
reference-consuming length of the clip-synthesized cigar; equivalently,
whenever the two totals disagree the call never returns a record map. -/
theorem claim_C2_length_agreement
    (cigar : List (CigarOp × Nat)) (path : List String)
    (name_to_seq : List (String × List Char))
    (query_start query_end query_length path_start path_end : Option Nat)
    (sequence : Option (List Char)) (phred : Option (List Int))
    (segments : Option (List String)) (variant_sep : Option Char)
    (key_sep : Option String)
    (return_indices return_counts return_cigars cigar_as_string
      return_variants separate_ends : Bool) (res : CutResult)
    (hne : ¬(cigar = [] ∨ path = []))
    (hok : cut_cigar cigar path name_to_seq query_start query_end
        query_length path_start path_end sequence phred segments variant_sep
        key_sep return_indices return_counts return_cigars cigar_as_string
        return_variants separate_ends = .ok res) :
    ∃ seqs c1, path.mapM (fun n => name_to_seq.lookup n) = some seqs ∧
      clipSynthesizedCigar cigar ((seqs.map (fun sq => (sq.length : Int))).sum)
        query_start query_end query_length path_start path_end sequence =
        .ok c1 ∧
      (seqs.map (fun sq => (sq.length : Int))).sum = totalR c1 := by
  unfold cut_cigar at hok
  rw [if_neg hne] at hok
  cases hm : path.mapM (fun n => name_to_seq.lookup n) with
  | none => rw [hm] at hok; cases hok
  | some seqs =>
    rw [hm] at hok
    dsimp only at hok
    cases hclip : clipSynthesizedCigar cigar
        ((seqs.map (fun sq => (sq.length : Int))).sum) query_start query_end
        query_length path_start path_end sequence with
    | error e => rw [hclip] at hok; cases hok
    | ok c1 =>
      rw [hclip] at hok
      dsimp only at hok
      refine ⟨seqs, c1, rfl, hclip, ?_⟩
      have h2 := cutRun_ok_C2 _ key_sep res hok
      have h3 : (if separate_ends then
          (0 : Int) :: (seqs.map (fun sq => (sq.length : Int))) ++ [0] else
          (seqs.map (fun sq => (sq.length : Int)))).sum = totalR c1 := h2
      rw [segLens_sum] at h3
      exact h3

/-- A freshly initialized counter record (all four counters zero). -/
def zeroRec : SegRecord :=
  { matches_ := some 0, mismatches := some 0, insertions := some 0,
    deletions := some 0 }

/-- The record map produced by the witness runs below: zero-count entries
for the synthesized end segments and a three-match entry for `a`. -/
def witRecs : List (String × SegRecord) :=
  [("upstream", zeroRec), ("a", { zeroRec with matches_ := some 3 }),
   ("downstream", zeroRec)]

theorem claim_C2_witness :
    ∃ seqs c1,
      [">a"].mapM (fun n => [(">a", "AAA".data)].lookup n) = some seqs ∧
      clipSynthesizedCigar [(CigarOp.eq, 3)]
        ((seqs.map (fun sq => (sq.length : Int))).sum) none none none none
        none none = .ok c1 ∧
      (seqs.map (fun sq => (sq.length : Int))).sum = totalR c1 :=
  claim_C2_length_agreement [(CigarOp.eq, 3)] [">a"] [(">a", "AAA".data)]
    none none none none none none none none none none false true false false
    false true (.nested witRecs) (by decide) (by rfl)

/-- C1 counterexample: a segment allow-list that matches no path entry
makes the loop skip record creation entirely, so a successful call
returns an empty record map although the clip-synthesized cigar has
query-consuming total 3 — the conservation identity fails as stated "for
every successful invocation". -/
theorem claim_C1_counterexample :
    cut_cigar [(CigarOp.eq, 3)] [">a"] [(">a", "AAA".data)] none none none
        none none none none (some ["b"]) none none false true false false
        false true = .ok (.nested []) ∧
    clipSynthesizedCigar [(CigarOp.eq, 3)] 3 none none none none none none =
      .ok [(CigarOp.eq, 3)] ∧
    totalQ [(CigarOp.eq, (3 : Int))] = 3 ∧
    sumQ [] = 0 :=
  ⟨rfl, rfl, rfl, rfl⟩

/-- C1 (corrected): the conservation identity fails when a segment
allow-list suppresses records (`claim_C1_counterexample`), but holds for
every successful run without an allow-list that records counters and
returns the nested map: the query-consuming counters summed over all
records equal the query-consuming total of the clip-synthesized cigar,
and the reference-consuming counters summed over all records equal the
total path length. -/
theorem claim_C1_conservation
    (cigar : List (CigarOp × Nat)) (path : List String)
    (name_to_seq : List (String × List Char))
    (query_start query_end query_length path_start path_end : Option Nat)
    (sequence : Option (List Char)) (phred : Option (List Int))
    (variant_sep : Option Char)
    (return_indices return_cigars cigar_as_string
      return_variants separate_ends : Bool)
    (recs : List (String × SegRecord))
    (hne : ¬(cigar = [] ∨ path = []))
    (hok : cut_cigar cigar path name_to_seq query_start query_end
        query_length path_start path_end sequence phred none variant_sep
        none return_indices true return_cigars cigar_as_string
        return_variants separate_ends = .ok (.nested recs)) :
    ∃ seqs c1, path.mapM (fun n => name_to_seq.lookup n) = some seqs ∧
      clipSynthesizedCigar cigar ((seqs.map (fun sq => (sq.length : Int))).sum)
        query_start query_end query_length path_start path_end sequence =
        .ok c1 ∧
      sumQ recs = totalQ c1 ∧
      sumR recs = (seqs.map (fun sq => (sq.length : Int))).sum := by
  unfold cut_cigar at hok
  rw [if_neg hne] at hok
  cases hm : path.mapM (fun n => name_to_seq.lookup n) with
  | none => rw [hm] at hok; cases hok
  | some seqs =>
    rw [hm] at hok
    dsimp only at hok
    cases hclip : clipSynthesizedCigar cigar
        ((seqs.map (fun sq => (sq.length : Int))).sum) query_start query_end
        query_length path_start path_end sequence with
    | error e => rw [hclip] at hok; cases hok
    | ok c1 =>
      rw [hclip] at hok
      dsimp only at hok
      refine ⟨seqs, c1, rfl, hclip, ?_⟩
      have hloop := cutRun_nested _ recs hok
      have h12 := cutLoop_ok_C1 _ rfl rfl (cutFuel _) initState recs
        (invC1_init _) hloop
      refine ⟨h12.1, ?_⟩
      have h3 : sumR recs = (if separate_ends then
          (0 : Int) :: (seqs.map (fun sq => (sq.length : Int))) ++ [0] else
          (seqs.map (fun sq => (sq.length : Int)))).sum := h12.2
      rw [segLens_sum] at h3
      exact h3

theorem claim_C1_witness :
    ∃ seqs c1,
      [">a"].mapM (fun n => [(">a", "AAA".data)].lookup n) = some seqs ∧
      clipSynthesizedCigar [(CigarOp.eq, 3)]
        ((seqs.map (fun sq => (sq.length : Int))).sum) none none none none
        none none = .ok c1 ∧
      sumQ witRecs = totalQ c1 ∧
      sumR witRecs = (seqs.map (fun sq => (sq.length : Int))).sum :=
  claim_C1_conservation [(CigarOp.eq, 3)] [">a"] [(">a", "AAA".data)]
    none none none none none none none none false false false false true
    witRecs (by decide) (by rfl)

/-! Uniqueness of record keys (claim C8): the co-walk without an
allow-list creates one record per segment, erroring on a repeated base
name, so a successful run certifies that all base names are distinct. -/

theorem passesFilter_none (ctx : CutCtx) (hSeg : ctx.segments = none)
    (name : String) : passesFilter ctx name = true := by
  unfold passesFilter
  rw [hSeg]

/-- The variant-separator split of a raw segment name (the first
component of `segNameVariant`, standalone). -/
def variantBaseName (vsep : Option Char) (raw : String) : String :=
  match vsep with
  | some sep =>
    if sep ∈ raw.data then String.mk (raw.data.take (raw.data.indexOf sep))
    else raw
  | none => raw

theorem segNameVariant_fst (ctx : CutCtx) (idx : Nat) :
    (segNameVariant ctx idx).1 =
      variantBaseName ctx.variant_sep (ctx.segNames.getD idx "") := by
  unfold segNameVariant variantBaseName
  cases ctx.variant_sep with
  | none => rfl
  | some sep =>
    dsimp only
    split_ifs <;> rfl

theorem mapM_some_length (f : String → Option (List Char)) :
    ∀ (l : List String) (r : List (List Char)),
      l.mapM f = some r → r.length = l.length := by
  intro l
  induction l with
  | nil =>
    intro r h
    rw [← List.mapM'_eq_mapM] at h
    simp only [List.mapM', Option.pure_def, Option.some.injEq] at h
    simp [← h]
  | cons a t ih =>
    intro r h
    rw [← List.mapM'_eq_mapM] at h
    simp only [List.mapM'] at h
    cases hfa : f a with
    | none => rw [hfa] at h; simp at h
    | some b =>
      rw [hfa] at h
      simp only [Option.bind_eq_bind, Option.some_bind] at h
      cases hmt : List.mapM' f t with
      | none => rw [hmt] at h; simp at h
      | some rt =>
        rw [hmt] at h
        simp at h
        have := ih rt (by rw [← List.mapM'_eq_mapM]; exact hmt)
        simp [← h, this]

theorem getD_map_strip (l : List String) (i : Nat) (h : i < l.length) :
    (l.map stripMarker).getD i "" = stripMarker (l.getD i "") := by
  rw [List.getD_eq_getElem _ _ (by rw [List.length_map]; exact h),
    List.getD_eq_getElem _ _ h, List.getElem_map]

theorem getD_sentinel (l : List String) (i : Nat) (h : i < l.length) :
    ("upstream" :: (l.map stripMarker ++ ["downstream"])).getD (i + 1) "" =
      stripMarker (l.getD i "") := by
  rw [List.getD_cons_succ]
  rw [List.getD_eq_getElem _ _ (by simp; omega), List.getD_eq_getElem _ _ h,
    List.getElem_append_left, List.getElem_map]
  rw [List.length_map]
  exact h

theorem dup_in_range_map (n : Nat) (f : Nat → String)
    (hnd : ((List.range n).map f).Nodup) (i j : Nat) (hi : i < n) (hj : j < n)
    (hij : i ≠ j) (he : f i = f j) : False := by
  have hi' : i < ((List.range n).map f).length := by simpa
  have hj' : j < ((List.range n).map f).length := by simpa
  have hget : ((List.range n).map f).get ⟨i, hi'⟩ =
      ((List.range n).map f).get ⟨j, hj'⟩ := by
    simp only [List.get_eq_getElem, List.getElem_map, List.getElem_range]
    exact he
  have := (List.Nodup.getElem_inj_iff hnd).1 hget
  exact hij this

/-- Key-uniqueness invariant of the co-walk (no allow-list): the record
keys are exactly the base names of the segments entered so far, in order
and pairwise distinct. -/
def InvC8 (ctx : CutCtx) (s : CutState) : Prop :=
  if s.first = true then s.res = []
  else
    (s.res.map Prod.fst).Nodup ∧
    s.res.map Prod.fst = (List.range (s.segment_idx + 1)).map
      (fun idx => (segNameVariant ctx idx).1) ∧
    s.segment_idx < ctx.segLens.length

theorem invC8_init (ctx : CutCtx) : InvC8 ctx initState := by
  simp [InvC8, initState]

/-- Preservation of `InvC8` along one loop iteration. -/
theorem cutStep_next_invC8 (ctx : CutCtx) (s s' : CutState)
    (hSeg : ctx.segments = none)
    (hInv : InvC8 ctx s) (h : cutStep ctx s = .next s') : InvC8 ctx s' := by
  unfold cutStep at h
  cases hb1 : stepBlock1 ctx s with
  | error e => rw [hb1] at h; cases h
  | ok r =>
    rw [hb1] at h
    cases r with
    | inr res => dsimp only at h; cases h
    | inl s1 =>
      dsimp only at h
      cases hb2 : stepBlock2 ctx s1 with
      | error e => rw [hb2] at h; cases h
      | ok s2 =>
        rw [hb2] at h
        dsimp only at h
        cases hb3 : stepAdvance ctx s2 with
        | error e => rw [hb3] at h; cases h
        | ok s3 =>
          rw [hb3] at h
          cases h
          obtain ⟨ol2, hol2, hadv⟩ := stepAdvance_cases ctx s2 s' hb3
          have happ : ∃ adv, applyAdvance ctx s2 adv = .ok s' := by
            rcases hadv with ⟨_, ha⟩ | ⟨_, ha⟩
            · exact ⟨ol2, ha⟩
            · exact ⟨min ol2 s2.segment_length, ha⟩
          obtain ⟨adv, hadv'⟩ := happ
          obtain ⟨hf3, hsi3, _, _, _, _, _, _, hk3, _⟩ :=
            applyAdvance_spec ctx s2 adv s' hadv'
          suffices h2 : (s2.res.map Prod.fst).Nodup ∧
              s2.res.map Prod.fst = (List.range (s2.segment_idx + 1)).map
                (fun idx => (segNameVariant ctx idx).1) ∧
              s2.segment_idx < ctx.segLens.length ∧ s2.first = false by
            obtain ⟨h2nd, h2keys, h2idx, h2f⟩ := h2
            unfold InvC8
            rw [hf3, h2f]
            simp only [Bool.false_eq_true, if_false]
            rw [hk3, hsi3]
            exact ⟨h2nd, h2keys, h2idx⟩
          rcases stepBlock2_cases ctx s1 s2 hb2 with ⟨hf1, hfetch⟩ | ⟨hf1, olx, holx, hrest⟩
          · -- the first iteration: block1 initialized segment 0.
            rcases stepBlock1_cases ctx s (Sum.inl s1) hb1 with
              ⟨hr, hsf, _⟩ | ⟨hsf, _, hr, _⟩ | ⟨s1', hr, hsf, hlen0, hinit⟩ |
              ⟨s1', res', hr, hsf, hrest1⟩ | ⟨res', hr, _⟩
            · cases hr; rw [hf1] at hsf; cases hsf
            · cases hr
            · cases hr
              obtain ⟨hif, hii, hic, hiq, hiop, hiol, hisl, hisn, hisq, hisr, hidisj⟩ :=
                initSegment_spec ctx s 0 s1 hinit
              obtain ⟨hfr, hfq, hfsi, hfsl, hff, hfsn, hfci, hfdisj⟩ :=
                fetchOp_spec ctx { s1 with first := false } s1.cigar_idx s2 hfetch
              have hz : s.res = [] := by
                have hz := hInv
                unfold InvC8 at hz
                rw [hsf] at hz
                simpa using hz
              have hres1 : s1.res = [((segNameVariant ctx 0).1,
                  initRecord ctx (segNameVariant ctx 0).2)] := by
                rcases hidisj with ⟨_, hpf⟩ | ⟨hre, _, _⟩
                · rw [passesFilter_none ctx hSeg] at hpf; cases hpf
                · rw [hre, hz]
                  rfl
              have hsi2 : s2.segment_idx = 0 := by rw [hfsi]; exact hii
              have hres2 : s2.res = s1.res := hfr
              refine ⟨?_, ?_, ?_, by rw [hff]⟩
              · rw [hres2, hres1]
                simp
              · rw [hres2, hres1, hsi2]
                rfl
              · rw [hsi2]
                exact Nat.pos_of_ne_zero hlen0
            · obtain ⟨_, _, _, _, hinit⟩ := hrest1
              cases hr
              have hx : s1.first = false := by
                rw [(initSegment_spec ctx _ (s.segment_idx + 1) s1 hinit).1]
                exact hsf
              rw [hx] at hf1
              cases hf1
            · cases hr
          · -- ordinary iteration.
            have hInv1 : (s1.res.map Prod.fst).Nodup ∧
                s1.res.map Prod.fst = (List.range (s1.segment_idx + 1)).map
                  (fun idx => (segNameVariant ctx idx).1) ∧
                s1.segment_idx < ctx.segLens.length := by
              rcases stepBlock1_cases ctx s (Sum.inl s1) hb1 with
                ⟨hr, hsf, _⟩ | ⟨hsf, _, hr, _⟩ | ⟨s1', hr, hsf, hlen0, hinit⟩ |
                ⟨s1', res', hr, hsf, _, hsl0, hfin, hlen, hinit⟩ | ⟨res', hr, _⟩
              · cases hr
                have hz := hInv
                unfold InvC8 at hz
                rw [hsf] at hz
                simp only [Bool.false_eq_true, if_false] at hz
                exact hz
              · cases hr
              · cases hr
                obtain ⟨hif, _⟩ := initSegment_spec ctx s 0 s1 hinit
                rw [← hif] at hsf
                rw [hsf] at hf1
                cases hf1
              · cases hr
                obtain ⟨hif, hii, hic, hiq, hiop, hiol, hisl, hisn, hisq, hisr, hidisj⟩ :=
                  initSegment_spec ctx { s with res := res' } (s.segment_idx + 1) s1 hinit
                have hz := hInv
                unfold InvC8 at hz
                rw [hsf] at hz
                simp only [Bool.false_eq_true, if_false] at hz
                obtain ⟨hznd, hzkeys, hzidx⟩ := hz
                have hfk := (finalizeSegment_spec ctx s res' hfin hznd).2.2
                have hidx1 : s.segment_idx + 1 < ctx.segLens.length := by omega
                rcases hidisj with ⟨_, hpf⟩ | ⟨hre, _, hfresh⟩
                · rw [passesFilter_none ctx hSeg] at hpf; cases hpf
                · have hkeys1 : s1.res.map Prod.fst = res'.map Prod.fst ++
                      [(segNameVariant ctx (s.segment_idx + 1)).1] := by
                    rw [hre]
                    simp
                  refine ⟨?_, ?_, by rw [hii]; exact hidx1⟩
                  · rw [hkeys1]
                    refine nodup_snoc _ _ (by rw [hfk]; exact hznd) ?_
                    exact hfresh
                  · rw [hkeys1, hfk, hzkeys, hii]
                    simp [List.range_succ]
              · cases hr
            obtain ⟨h1nd, h1keys, h1idx⟩ := hInv1
            rcases hrest with ⟨holz, hfetch⟩ | ⟨holnz, hs2eq⟩
            · obtain ⟨hfr, hfq, hfsi, hfsl, hff, hfsn, hfci, hfdisj⟩ :=
                fetchOp_spec ctx s1 (s1.cigar_idx + 1) s2 hfetch
              exact ⟨by rw [hfr]; exact h1nd,
                by rw [hfr, hfsi]; exact h1keys,
                by rw [hfsi]; exact h1idx, by rw [hff]; exact hf1⟩
            · rw [hs2eq]
              exact ⟨h1nd, h1keys, h1idx, hf1⟩

/-- Termination with `break` yields the full, duplicate-free key list. -/
theorem cutStep_done_C8 (ctx : CutCtx) (s : CutState)
    (res : List (String × SegRecord)) (hSeg : ctx.segments = none)
    (hInv : InvC8 ctx s) (h : cutStep ctx s = .done res) :
    res.map Prod.fst = (List.range ctx.segLens.length).map
      (fun idx => (segNameVariant ctx idx).1) ∧ (res.map Prod.fst).Nodup := by
  unfold cutStep at h
  cases hb1 : stepBlock1 ctx s with
  | error e => rw [hb1] at h; cases h
  | ok r =>
    rw [hb1] at h
    cases r with
    | inl s1 =>
      dsimp only at h
      cases hb2 : stepBlock2 ctx s1 with
      | error e => rw [hb2] at h; cases h
      | ok s2 =>
        rw [hb2] at h
        dsimp only at h
        cases hb3 : stepAdvance ctx s2 with
        | error e => rw [hb3] at h; cases h
        | ok s3 => rw [hb3] at h; cases h
    | inr resr =>
      dsimp only at h
      cases h
      rcases stepBlock1_cases ctx s (Sum.inr res) hb1 with
        ⟨hr, _⟩ | ⟨hsf, hlen, hr, _⟩ | ⟨s1', hr, _⟩ | ⟨s1', res', hr, _⟩ |
        ⟨res', hr, hsf, hopI, hsl0, hfin, hlen, hcig, holz⟩
      · cases hr
      · cases hr
        have hz : s.res = [] := by
          have hz := hInv
          unfold InvC8 at hz
          rw [hsf] at hz
          simpa using hz
        rw [hz, hlen]
        simp
      · cases hr
      · cases hr
      · cases hr
        have hz := hInv
        unfold InvC8 at hz
        rw [hsf] at hz
        simp only [Bool.false_eq_true, if_false] at hz
        obtain ⟨hznd, hzkeys, hzidx⟩ := hz
        obtain ⟨_, _, hfk⟩ := finalizeSegment_spec ctx s res hfin hznd
        have hnd2 : (res.map Prod.fst).Nodup := by rw [hfk]; exact hznd
        refine ⟨?_, hnd2⟩
        rw [hfk, hzkeys, hlen]

/-- Fuel induction for the key-uniqueness invariant. -/
theorem cutLoop_ok_C8 (ctx : CutCtx) (hSeg : ctx.segments = none) :
    ∀ (fuel : Nat) (s : CutState) (res : List (String × SegRecord)),
      InvC8 ctx s → cutLoop ctx fuel s = .ok res →
      res.map Prod.fst = (List.range ctx.segLens.length).map
        (fun idx => (segNameVariant ctx idx).1) ∧ (res.map Prod.fst).Nodup := by
  intro fuel
  induction fuel with
  | zero => intro s res _ h; cases h
  | succ n ih =>
    intro s res hInv h
    unfold cutLoop at h
    cases hs : cutStep ctx s with
    | fail e => rw [hs] at h; cases h
    | done r =>
      rw [hs] at h
      cases h
      exact cutStep_done_C8 ctx s res hSeg hInv hs
    | next s2 =>
      rw [hs] at h
      exact ih s2 res (cutStep_next_invC8 ctx s s2 hSeg hInv hs) h

theorem cutRun_ok_loop (ctx : CutCtx) (ksep : Option String) (res : CutResult)
    (h : cutRun ctx ksep = .ok res) :
    ∃ r, cutLoop ctx (cutFuel ctx) initState = .ok r := by
  unfold cutRun at h
  cases hloop : cutLoop ctx (cutFuel ctx) initState with
  | error e => rw [hloop] at h; cases h
  | ok r => exact ⟨r, rfl⟩

/-- A successful run of the loop-and-flatten tail is impossible when two
segment positions carry the same base name (no allow-list). -/
theorem dup_names_no_ok (ctx : CutCtx) (ksep : Option String)
    (res : CutResult) (hSeg : ctx.segments = none) (i j : Nat) (hij : i < j)
    (hj : j < ctx.segLens.length)
    (hdup : (segNameVariant ctx i).1 = (segNameVariant ctx j).1)
    (h : cutRun ctx ksep = .ok res) : False := by
  obtain ⟨r, hloop⟩ := cutRun_ok_loop ctx ksep res h
  obtain ⟨hkeys, hnd⟩ :=
    cutLoop_ok_C8 ctx hSeg (cutFuel ctx) initState r (invC8_init ctx) hloop
  rw [hkeys] at hnd
  exact dup_in_range_map ctx.segLens.length _ hnd i j (by omega) hj
    (by omega) hdup

/-- C8 counterexample: with a segment allow-list that matches no path
entry, the duplicate check (lines 167-170) is bypassed together with
record creation, so a path repeating `>a` returns an (empty) record map
instead of raising — the claim fails as stated "for every path".
(Without the allow-list the same call raises `DuplicateSegment`.) -/
theorem claim_C8_counterexample :
    cut_cigar [(CigarOp.eq, 6)] [">a", ">a"] [(">a", "AAA".data)] none none
        none none none none none (some ["b"]) none none false true false
        false false true = .ok (.nested []) ∧
    cut_cigar [(CigarOp.eq, 6)] [">a", ">a"] [(">a", "AAA".data)] none none
        none none none none none none none none false true false false false
        true = .error Err.duplicateSegment :=
  ⟨rfl, rfl⟩

/-- C8 (corrected): without a segment allow-list — the claim's guarantee
is void under one, see `claim_C8_counterexample` — a non-empty cigar and
a path in which two entries share the same base name after
orientation-marker stripping and variant-separator stripping can never
yield a record map: `cut_cigar` always fails on such a path (the error is
`DuplicateSegment` when the co-walk reaches the repeated segment first,
but an earlier failure of another kind may preempt it). -/
theorem claim_C8_duplicate_rejected
    (cigar : List (CigarOp × Nat)) (path : List String)
    (name_to_seq : List (String × List Char))
    (query_start query_end query_length path_start path_end : Option Nat)
    (sequence : Option (List Char)) (phred : Option (List Int))
    (variant_sep : Option Char) (key_sep : Option String)
    (return_indices return_counts return_cigars cigar_as_string
      return_variants separate_ends : Bool)
    (i j : Nat) (hij : i < j) (hj : j < path.length)
    (hdup : variantBaseName variant_sep (stripMarker (path.getD i "")) =
      variantBaseName variant_sep (stripMarker (path.getD j "")))
    (hne : ¬(cigar = [] ∨ path = [])) :
    ∀ res : CutResult,
      cut_cigar cigar path name_to_seq query_start query_end query_length
        path_start path_end sequence phred none variant_sep key_sep
        return_indices return_counts return_cigars cigar_as_string
        return_variants separate_ends ≠ .ok res := by
  intro res hok
  unfold cut_cigar at hok
  rw [if_neg hne] at hok
  cases hm : path.mapM (fun n => name_to_seq.lookup n) with
  | none => rw [hm] at hok; cases hok
  | some seqs =>
    rw [hm] at hok
    dsimp only at hok
    cases hclip : clipSynthesizedCigar cigar
        ((seqs.map (fun sq => (sq.length : Int))).sum) query_start query_end
        query_length path_start path_end sequence with
    | error e => rw [hclip] at hok; cases hok
    | ok c1 =>
      rw [hclip] at hok
      dsimp only at hok
      have hlenS : seqs.length = path.length := mapM_some_length _ path seqs hm
      cases separate_ends with
      | false =>
        refine dup_names_no_ok _ key_sep res rfl i j hij ?_ ?_ hok
        · show j < ((seqs.map (fun sq => (sq.length : Int)))).length
          rw [List.length_map, hlenS]
          exact hj
        · rw [segNameVariant_fst, segNameVariant_fst]
          show variantBaseName variant_sep ((path.map stripMarker).getD i "") =
            variantBaseName variant_sep ((path.map stripMarker).getD j "")
          rw [getD_map_strip path i (lt_trans hij hj), getD_map_strip path j hj]
          exact hdup
      | true =>
        refine dup_names_no_ok _ key_sep res rfl (i + 1) (j + 1) (by omega)
          ?_ ?_ hok
        · show j + 1 < ((0 : Int) ::
            ((seqs.map (fun sq => (sq.length : Int))) ++ [(0 : Int)])).length
          simp only [List.length_cons, List.length_append, List.length_map]
          omega
        · rw [segNameVariant_fst, segNameVariant_fst]
          show variantBaseName variant_sep
              (("upstream" :: ((path.map stripMarker) ++ ["downstream"])).getD
                (i + 1) "") =
            variantBaseName variant_sep
              (("upstream" :: ((path.map stripMarker) ++ ["downstream"])).getD
                (j + 1) "")
          rw [getD_sentinel path i (lt_trans hij hj), getD_sentinel path j hj]
          exact hdup

theorem claim_C8_witness :
    cut_cigar [(CigarOp.eq, 6)] [">a", ">a"] [(">a", "AAA".data)] none none
        none none none none none none none none false true false false false
        true ≠ .ok (.nested []) :=
  claim_C8_duplicate_rejected [(CigarOp.eq, 6)] [">a", ">a"]
    [(">a", "AAA".data)] none none none none none none none none none false
    true false false false true 0 1 (by decide) (by decide) (by decide)
    (by decide) (.nested [])

/-- C3 (code bug): at the spec's reverse-oriented scenario — path
`["<seg1"]`, `name_to_seq` mapping `<seg1` to `TTT`, cigar `3=`,
`sequence = "TTT"`, `phred = [10, 20, 30]` — the `seg1` record carries
the reverse-complemented sequence `AAA` as required, but its quality
list is empty instead of the reversed window `[30, 20, 10]`: line 142's
`phred[start_idx:end_idx:step]` with `step = -1` is a Python extended
slice, which is empty whenever `start_idx < end_idx`, so every
reverse-oriented segment loses its quality values. -/
theorem claim_C3_reverse_phred_bug :
    cut_cigar [(CigarOp.eq, 3)] ["<seg1"] [("<seg1", "TTT".data)] none none
        none none none (some "TTT".data) (some [10, 20, 30]) none none none
        false false false false false true =
      .ok (.nested
        [("upstream", { seq := some [], phred := some [] }),
         ("seg1", { seq := some "AAA".data, phred := some ([] : List Int) }),
         ("downstream", { seq := some [], phred := some [] })]) ∧
    (([10, 20, 30] : List Int).reverse = [30, 20, 10] ∧
      ([30, 20, 10] : List Int) ≠ []) :=
  ⟨rfl, rfl, by decide⟩

end Pipeline
